import Mathlib

/-!
Verification development for the "live columns" CodeMirror extension.

Strings from the JavaScript side are modelled as `List Char`, with character
offsets equal to list indices (all inputs of interest are ASCII, where
JavaScript UTF-16 code-unit offsets coincide with character offsets).
Each definition is a translation of the correspondingly named function of the
source file; the JavaScript regular expressions are translated into
deterministic matchers whose backtracking behaviour is derived from the
concrete patterns (each quantifier is followed by a token disjoint from the
quantified class, or the residual backtracking is spelled out explicitly).
-/

/-- The character class of the JavaScript regex `\s` (also the set trimmed by
`String.prototype.trim`): ASCII whitespace plus the Unicode space characters
and line terminators. -/
def jsSpace (c : Char) : Bool :=
  c = ' ' || c = '\t' || c = '\n' || c = '\r' || c = '\u000B' || c = '\u000C' ||
  c = ' ' || c = ' ' || (' ' ≤ c && c ≤ ' ') ||
  c = ' ' || c = ' ' || c = ' ' || c = ' ' || c = '　' ||
  c = '﻿'

/-- JavaScript `LineTerminator` characters (what `^`/`$` with the `m` flag
anchor around, and what `.` refuses to match). -/
def isLineTerm (c : Char) : Bool :=
  c = '\n' || c = '\r' || c = ' ' || c = ' '

/-- `String.prototype.trim`. -/
def trimChars (l : List Char) : List Char :=
  ((l.dropWhile jsSpace).reverse.dropWhile jsSpace).reverse

/-- `String.prototype.split('|')`: split at every `'|'`, keeping empty pieces
(`"".split('|')` is `[""]`). -/
def splitOnPipe : List Char → List (List Char)
  | [] => [[]]
  | '|' :: rest => [] :: splitOnPipe rest
  | c :: rest =>
    match splitOnPipe rest with
    | t :: ts => (c :: t) :: ts
    | [] => [[c]]

/-- `String.prototype.split(/\r?\n/)`: a `"\r\n"` pair or a lone `"\n"`
separates lines; a lone `'\r'` stays inside its line. -/
def splitRN : List Char → List (List Char)
  | [] => [[]]
  | '\r' :: '\n' :: rest => [] :: splitRN rest
  | '\n' :: rest => [] :: splitRN rest
  | c :: rest =>
    match splitRN rest with
    | t :: ts => (c :: t) :: ts
    | [] => [[c]]

/-- `Array.prototype.join('\n')`. -/
def joinNL (lines : List (List Char)) : List Char :=
  List.intercalate ['\n'] lines

/-- `Array.prototype.join('|')`. -/
def joinPipe (parts : List (List Char)) : List Char :=
  List.intercalate ['|'] parts

/-- Match a literal token exactly, returning the rest of the input. -/
def matchLit : List Char → List Char → Option (List Char)
  | [], s => some s
  | _ :: _, [] => none
  | c :: cs, d :: ds => if c = d then matchLit cs ds else none

/-- Match a literal token case-insensitively (the regexes carry the `i` flag;
for the ASCII letters involved this is `Char.toLower` comparison), returning
the rest of the input. -/
def matchLitCI : List Char → List Char → Option (List Char)
  | [], s => some s
  | _ :: _, [] => none
  | c :: cs, d :: ds => if c.toLower = d.toLower then matchLitCI cs ds else none

/-- `parseInt(digits, 10)` on a nonempty digit string.  (For digit strings too
long for exact float representation JavaScript rounds, but the only use is the
comparison against the range 1..6, which is unaffected.) -/
def digitsToNat (ds : List Char) : Nat :=
  ds.foldl (fun acc c => acc * 10 + (c.toNat - 48)) 0

def litColumnsStart : List Char := "columns:start".toList
def litColumnsEnd : List Char := "columns:end".toList
def litColumnsColors : List Char := "columns:colors".toList
def litColumnsBorders : List Char := "columns:borders".toList

/-- The literal `%%` that opens every marker pattern. -/
def matchTwoPercents : List Char → Option (List Char)
  | '%' :: '%' :: r => some r
  | _ => none

/-- The trailing `%{1,2}`: one or two percent signs, greedily two. -/
def percentOnceTwice : List Char → Option (List Char)
  | '%' :: '%' :: r => some r
  | '%' :: r => some r
  | _ => none

/-- Attempt of `/%%\s*columns:start\s+(\d+)\s*%{1,2}/i` at the head of the
input.  Every `\s*`/`\s+`/`\d+` run is followed by a character outside its
class, so the greedy quantifiers are maximal munches with no backtracking.
Returns the remaining input after the match together with the parsed count. -/
def matchStartAt (s : List Char) : Option (List Char × Nat) :=
  (matchTwoPercents s).bind fun r1 =>
  (matchLitCI litColumnsStart (r1.dropWhile jsSpace)).bind fun r3 =>
  if (r3.takeWhile jsSpace).isEmpty then none
  else
    let r4 := r3.dropWhile jsSpace
    let ds := r4.takeWhile Char.isDigit
    if ds.isEmpty then none
    else
      (percentOnceTwice ((r4.drop ds.length).dropWhile jsSpace)).map
        fun r7 => (r7, digitsToNat ds)

/-- Attempt of `/%%\s*columns:end\s*%{1,2}/i` at the head of the input,
returning the remaining input after the match. -/
def matchEndAt (s : List Char) : Option (List Char) :=
  (matchTwoPercents s).bind fun r1 =>
  (matchLitCI litColumnsEnd (r1.dropWhile jsSpace)).bind fun r3 =>
  percentOnceTwice (r3.dropWhile jsSpace)

/-- `startRe.exec` from a given offset: the first position at or after the
offset where the start-marker pattern matches.  The argument list is the
suffix of the document at offset `i`; the result is the absolute match index,
the match length, and the parsed count. -/
def findStartAux : List Char → Nat → Option (Nat × Nat × Nat)
  | [], _ => none
  | c :: tl, i =>
    match matchStartAt (c :: tl) with
    | some (rem, n) => some (i, (c :: tl).length - rem.length, n)
    | none => findStartAux tl (i + 1)

/-- `endRe.exec` from a given offset: the first position at or after the
offset where the end-marker pattern matches, as absolute index and length. -/
def findEndAux : List Char → Nat → Option (Nat × Nat)
  | [], _ => none
  | c :: tl, i =>
    match matchEndAt (c :: tl) with
    | some rem => some (i, (c :: tl).length - rem.length)
    | none => findEndAux tl (i + 1)

/-- Characters admissible in the metadata payload class `[^\n%]`. -/
def payloadChar (c : Char) : Bool := !(c = '\n') && !(c = '%')

/-- `%{1,2}\s*$` against the end of the string: one or two percent signs
followed only by whitespace. -/
def percentTailWs : List Char → Bool
  | '%' :: t =>
    t.all jsSpace ||
      (match t with
       | '%' :: u => u.all jsSpace
       | _ => false)
  | _ => false

/-- `\s*%{1,2}\s*$` against the end of the string. -/
def metaSuffixOk (s : List Char) : Bool :=
  percentTailWs (s.dropWhile jsSpace)

/-- The suffix `\s+([^\n%]+)\s*%{1,2}\s*$` of the anchored metadata-line
regexes, returning the capture.  The greedy `[^\n%]+` run is maximal; when the
character after the maximal `\s+` run is `'%'` the engine backtracks and the
capture becomes the last whitespace character of the run (so the run needs
length at least 2). -/
def matchMetaPayloadDollar (rest : List Char) : Option (List Char) :=
  let w := rest.takeWhile jsSpace
  let q := rest.dropWhile jsSpace
  if w.isEmpty then none
  else
    let p := q.takeWhile payloadChar
    if p.isEmpty then
      if 2 ≤ w.length && metaSuffixOk q then some [w.getLastD ' '] else none
    else
      if metaSuffixOk (q.drop p.length) then some p else none

/-- `trimmedLine.match(/^%%\s*columns:<tag>\s+([^\n%]+)\s*%{1,2}\s*$/i)`,
returning the capture group.  The regex is anchored at both ends and has no
`m` flag, so `^`/`$` are the string boundaries. -/
def matchMetaLine (lit : List Char) (t : List Char) : Option (List Char) :=
  (matchTwoPercents t).bind fun r1 =>
  (matchLitCI lit (r1.dropWhile jsSpace)).bind matchMetaPayloadDollar

/-- `capture.split('|').map(c => c.trim())`. -/
def splitTokens (payload : List Char) : List (List Char) :=
  (splitOnPipe payload).map trimChars

/-- The metadata-consumption loop of `findColumnsBlocks`: repeatedly remove
the first remaining line while it is blank or a colors/borders metadata line
(the loop index never advances past the splice point, so only the head line is
ever inspected), accumulating the hidden-length counter.  Returns the final
colors, borders, metadata length and remaining lines. -/
def consumeMetaGo (colors borders : List (List Char)) (mlen : Nat) :
    List (List Char) → List (List Char) × List (List Char) × Nat × List (List Char)
  | [] => (colors, borders, mlen, [])
  | line :: rest =>
    let t := trimChars line
    if t.isEmpty then consumeMetaGo colors borders (mlen + line.length + 1) rest
    else
      match matchMetaLine litColumnsColors t with
      | some payload =>
        consumeMetaGo (splitTokens payload) borders (mlen + line.length + 1) rest
      | none =>
        match matchMetaLine litColumnsBorders t with
        | some payload =>
          consumeMetaGo colors (splitTokens payload) (mlen + line.length + 1) rest
        | none => (colors, borders, mlen, line :: rest)

def consumeMeta (lines : List (List Char)) :
    List (List Char) × List (List Char) × Nat × List (List Char) :=
  consumeMetaGo [] [] 0 lines

/-- The last index of `l` whose character satisfies `p`. -/
def lastIdxOf (p : Char → Bool) (l : List Char) : Option Nat :=
  match l.reverse.findIdx? p with
  | some j => some (l.length - 1 - j)
  | none => none

/-- The trailing `\s*$` of the column-separator regex under the `m` flag: the
longest whitespace prefix ending at the end of the string or just before a
line terminator.  Returns the number of whitespace characters consumed. -/
def sepTrail (s : List Char) : Option Nat :=
  let m := s.takeWhile jsSpace
  if s.length = m.length then some m.length
  else lastIdxOf isLineTerm m

def threeDashes : List Char := ['-', '-', '-']
def litCol : List Char := ['c', 'o', 'l']

/-- Attempt of the column-separator body `\s*---\s*col\s*---\s*$` (from
`/^\s*---\s*col\s*---\s*$/im`) at a line-start position, returning the match
length. -/
def sepMatchLen (s : List Char) : Option Nat := do
  let a1 ← matchLit threeDashes (s.dropWhile jsSpace)
  let b1 ← matchLitCI litCol (a1.dropWhile jsSpace)
  let c1 ← matchLit threeDashes (b1.dropWhile jsSpace)
  let k ← sepTrail c1
  pure (s.length - c1.length + k)

/-- `String.prototype.split(/^\s*---\s*col\s*---\s*$/im)`: scan left to right;
at each position where `^` holds (start of input or just after a line
terminator) attempt the separator pattern; a match ends the current piece and
the scan resumes after it. -/
def splitSepGo : Nat → List Char → List Char → Bool → List (List Char)
  | _, accRev, [], _ => [accRev.reverse]
  | 0, accRev, s, _ => [accRev.reverse ++ s]
  | fuel + 1, accRev, c :: tl, atLS =>
    if atLS then
      match sepMatchLen (c :: tl) with
      | some k =>
        accRev.reverse ::
          splitSepGo fuel [] ((c :: tl).drop k)
            (isLineTerm (((c :: tl).take k).getLastD ' '))
      | none => splitSepGo fuel (c :: accRev) tl (isLineTerm c)
    else splitSepGo fuel (c :: accRev) tl (isLineTerm c)

def splitColSep (body : List Char) : List (List Char) :=
  splitSepGo body.length [] body true

/-- `parseColumnsFromBody`: split the body on the separator regex and return
exactly `numColumns` trimmed pieces, missing pieces becoming empty strings. -/
def parseColumnsFromBody (body : List Char) (numColumns : Nat) : List (List Char) :=
  let parts := splitColSep body
  (List.range numColumns).map fun i => trimChars ((parts.get? i).getD [])

/-- The `ColumnsBlock` record. -/
structure ColumnsBlock where
  numColumns : Nat
  columns : List (List Char)
  startPos : Nat
  endPos : Nat
  startMarkerLen : Nat
  endMarkerLen : Nat
  colors : List (List Char)
  borders : List (List Char)
deriving Repr, DecidableEq

/-- The scanning loop of `findColumnsBlocks`.  `lastIndex` is the regex
`lastIndex`; the fuel (always instantiated to more than the document length,
which bounds the number of iterations since `lastIndex` strictly increases)
drives the recursion. -/
def findBlocksGo (text : List Char) : Nat → Nat → List ColumnsBlock
  | 0, _ => []
  | fuel + 1, lastIndex =>
    match findStartAux (text.drop lastIndex) lastIndex with
    | none => []
    | some (idx, len, num) =>
      let afterStart := idx + len
      if num < 1 || 6 < num then findBlocksGo text fuel afterStart
      else
        match findEndAux (text.drop afterStart) afterStart with
        | none => findBlocksGo text fuel afterStart
        | some (endIdx, endLen) =>
          let endPos := endIdx + endLen
          let blockContent := (text.drop afterStart).take (endIdx - afterStart)
          let meta := consumeMeta (splitRN blockContent)
          let bodyText := joinNL meta.2.2.2
          let cols := parseColumnsFromBody bodyText num
          { numColumns := num, columns := cols, startPos := idx, endPos := endPos,
            startMarkerLen := len + meta.2.2.1, endMarkerLen := endLen,
            colors := meta.1, borders := meta.2.1 } ::
            findBlocksGo text fuel endPos

/-- `findColumnsBlocks`: scan the whole document for column blocks. -/
def findColumnsBlocks (text : List Char) : List ColumnsBlock :=
  findBlocksGo text (text.length + 1) 0

def startLineOf (numColumns : Nat) : List Char :=
  "%% columns:start ".toList ++ (toString numColumns).toList ++ " %%".toList

def endLineChars : List Char := "%% columns:end %%".toList

def sepLineChars : List Char := "--- col ---".toList

def colorsLineOf (numColumns : Nat) (colors : List (List Char)) : List Char :=
  "%% columns:colors ".toList ++ joinPipe (colors.take numColumns) ++ " %%".toList

def bordersLineOf (numColumns : Nat) (borders : List (List Char)) : List Char :=
  "%% columns:borders ".toList ++ joinPipe (borders.take numColumns) ++ " %%".toList

/-- The column lines interleaved with separator lines (the `forEach` over the
normalized, sliced column array). -/
def interleaveSep : List (List Char) → List (List Char)
  | [] => []
  | c :: rest => c :: rest.flatMap fun col => [sepLineChars, col]

/-- `buildColumnsMarkdown`.  The JavaScript optional parameters `colors?` /
`borders?` are passed as explicit lists; an absent argument behaves exactly
like `[]` (both fail the `colors && colors.length` test). -/
def buildColumnsMarkdown (numColumns : Nat) (columns : List (List Char))
    (colors : List (List Char)) (borders : List (List Char)) : List Char :=
  let normalized := columns ++ List.replicate (numColumns - columns.length) []
  joinNL
    ([startLineOf numColumns] ++
      (if colors.isEmpty then [] else [colorsLineOf numColumns colors]) ++
      (if borders.isEmpty then [] else [bordersLineOf numColumns borders]) ++
      interleaveSep (normalized.take numColumns) ++
      [endLineChars])

/-! ## The editable-surface controller (`ColumnsWidget.syncToSource`) -/

/-- The widget state relevant to `syncToSource`: the in-progress guard, the
container presence, the cached per-pane contents and the cached block. -/
structure WidgetState where
  isUpdating : Bool
  hasContainer : Bool
  columnContents : List (List Char)
  block : ColumnsBlock
deriving Repr, DecidableEq

/-- A dispatched document mutation: replace range `[from, to)` with `insert`. -/
structure Mutation where
  replaceFrom : Nat
  replaceTo : Nat
  insert : List Char
deriving Repr, DecidableEq

/-- `newContents.some((content, i) => content !== (this.columnContents[i] || ''))`. -/
def hasChangesCheck (newContents old : List (List Char)) : Bool :=
  newContents.enum.any fun ci => !(ci.2 = old.getD ci.1 [])

/-- The suffix `\s+([^\n%]+)\s*%{1,2}` of the unanchored relocation regexes
(no `$`, no trailing requirement beyond one or two percent signs). -/
def loosePercentOk (s : List Char) : Bool :=
  match s.dropWhile jsSpace with
  | '%' :: _ => true
  | _ => false

def matchLoosePayload (rest : List Char) : Option (List Char) :=
  let w := rest.takeWhile jsSpace
  let q := rest.dropWhile jsSpace
  if w.isEmpty then none
  else
    let p := q.takeWhile payloadChar
    if p.isEmpty then
      if 2 ≤ w.length && loosePercentOk q then some [w.getLastD ' '] else none
    else
      if loosePercentOk (q.drop p.length) then some p else none

/-- Attempt of `/%%\s*columns:<tag>\s+([^\n%]+)\s*%{1,2}/i` at the head of the
input, returning the capture. -/
def matchMetaLoose (lit : List Char) (s : List Char) : Option (List Char) :=
  (matchTwoPercents s).bind fun r1 =>
  (matchLitCI lit (r1.dropWhile jsSpace)).bind matchLoosePayload

/-- `blockContent.match(regex)` for the unanchored metadata regexes: the
capture of the leftmost match, if any. -/
def searchMeta (lit : List Char) : List Char → Option (List Char)
  | [] => none
  | c :: tl =>
    match matchMetaLoose lit (c :: tl) with
    | some p => some p
    | none => searchMeta lit tl

/-- The re-location loop of `syncToSource`: find the first start marker whose
count equals the widget's column count and that is followed by an end marker;
re-read colors and borders from the located block content.  Returns
`(startPos, endPos, colors, borders)`. -/
def relocateGo (text : List Char) (numCols : Nat) :
    Nat → Nat → Option (Nat × Nat × List (List Char) × List (List Char))
  | 0, _ => none
  | fuel + 1, lastIndex =>
    match findStartAux (text.drop lastIndex) lastIndex with
    | none => none
    | some (idx, len, num) =>
      let afterStart := idx + len
      match findEndAux (text.drop afterStart) afterStart with
      | none => relocateGo text numCols fuel afterStart
      | some (endIdx, endLen) =>
        if num = numCols then
          let blockContent := (text.drop afterStart).take (endIdx - afterStart)
          some (idx, endIdx + endLen,
            (searchMeta litColumnsColors blockContent).elim [] splitTokens,
            (searchMeta litColumnsBorders blockContent).elim [] splitTokens)
        else relocateGo text numCols fuel afterStart

def relocate (text : List Char) (numCols : Nat) :
    Option (Nat × Nat × List (List Char) × List (List Char)) :=
  relocateGo text numCols (text.length + 1) 0

/-- `ColumnsWidget.syncToSource`.  The DOM reads and the exception behaviour
of the fallible steps are made explicit: `extracted` is the outcome of
reading and converting every pane (`.error` if extraction threw), and
`dispatchThrows` records whether the document dispatch throws.  A thrown
exception is caught and logged; the `finally` clause clears the guard on
every path.  Returns the final state and the dispatched mutation, if any. -/
def syncToSource (st : WidgetState) (extracted : Except Unit (List (List Char)))
    (dispatchThrows : Bool) (docText : List Char) : WidgetState × Option Mutation :=
  if st.isUpdating || !st.hasContainer then (st, none)
  else
    match extracted with
    | .error _ => ({ st with isUpdating := false }, none)
    | .ok newContents =>
      if !hasChangesCheck newContents st.columnContents then
        ({ st with isUpdating := false }, none)
      else
        let current :=
          match relocate docText st.block.numColumns with
          | some c => c
          | none => (st.block.startPos, st.block.endPos, st.block.colors, st.block.borders)
        let f := min current.1 docText.length
        let t := max f (min current.2.1 docText.length)
        let newMarkdown :=
          buildColumnsMarkdown st.block.numColumns newContents current.2.2.1 current.2.2.2
        if dispatchThrows then
          ({ st with isUpdating := false, columnContents := newContents }, none)
        else
          ({ st with isUpdating := false, columnContents := newContents },
            some ⟨f, t, newMarkdown⟩)

/-! ## The transaction filter (`blockCollapsedInput`) -/

/-- The scanning loop of the transaction filter: successive start-marker
matches (the column count is not validated and the scan resumes after each
start match, not after the end marker), each paired with the first end-marker
match after it; for each pair, record `(firstLineEnd, blockEnd)`. -/
def collapsedPairsGo (text : List Char) : Nat → Nat → List (Nat × Nat)
  | 0, _ => []
  | fuel + 1, lastIndex =>
    match findStartAux (text.drop lastIndex) lastIndex with
    | none => []
    | some (idx, len, _) =>
      let afterStart := idx + len
      match findEndAux (text.drop afterStart) afterStart with
      | none => collapsedPairsGo text fuel afterStart
      | some (endIdx, endLen) =>
        (idx + len, endIdx + endLen) :: collapsedPairsGo text fuel afterStart

def collapsedPairs (text : List Char) : List (Nat × Nat) :=
  collapsedPairsGo text (text.length + 1) 0

/-- One change `(fromA, toA)` is blocked when `fromA` lies strictly after the
first line of some scanned pair and at or before its block end. -/
def blockedChangeAt (text : List Char) (fromA : Nat) : Bool :=
  (collapsedPairs text).any fun pr => decide (pr.1 < fromA) && decide (fromA ≤ pr.2)

/-- `blockCollapsedInput` (the `EditorState.transactionFilter`).  Returns
`true` when the transaction passes through unchanged and `false` when the
filter cancels it (the source returns `[]`, leaving the document unchanged). -/
def blockCollapsedInput (isLivePreview docChanged : Bool) (text : List Char)
    (changes : List (Nat × Nat)) : Bool :=
  if !isLivePreview then true
  else if !docChanged then true
  else !(changes.any fun ch => blockedChangeAt text ch.1)

/-! ## The pane renderer (`ColumnsWidget.renderContent`) -/

/-- The three HTML-escaping global replaces, in source order. -/
def escapeHtml (s : List Char) : List Char :=
  let s1 := s.flatMap fun c => if c = '&' then "&amp;".toList else [c]
  let s2 := s1.flatMap fun c => if c = '<' then "&lt;".toList else [c]
  s2.flatMap fun c => if c = '>' then "&gt;".toList else [c]

/-- The suffix `\s+(.+)$` of the line-anchored patterns: at least one
whitespace character, then a nonempty greedy capture running to the end of the
line (when everything after the whitespace run is empty the engine backtracks
and captures the last whitespace character). -/
def plusCapture (r : List Char) : Option (List Char) :=
  let w := r.takeWhile jsSpace
  let q := r.drop w.length
  if w.isEmpty then none
  else if q.isEmpty then
    if 2 ≤ w.length && !isLineTerm (w.getLastD ' ') then some [w.getLastD ' '] else none
  else some q

/-- One line of `^(#{1,6})\s+(.+)$` with the `<h‹n›>` replacement callback:
seven or more leading hashes never match (the character after any shorter
hash run is still `'#'`, not whitespace). -/
def headingLine (l : List Char) : List Char :=
  let hashes := l.takeWhile fun c => c = '#'
  if hashes.length = 0 || 6 < hashes.length then l
  else
    match plusCapture (l.drop hashes.length) with
    | none => l
    | some content =>
      "<h".toList ++ (toString hashes.length).toList ++ ">".toList ++ content ++
        "</h".toList ++ (toString hashes.length).toList ++ ">".toList

/-- One line of `^[-*]\s+(.+)$` with the `<li>` replacement. -/
def ulistLine (l : List Char) : List Char :=
  match l with
  | c :: rest =>
    if c = '-' || c = '*' then
      match plusCapture rest with
      | some content => "<li>".toList ++ content ++ "</li>".toList
      | none => l
    else l
  | [] => l

/-- One line of `^\d+\.\s+(.+)$` with the `<li>` replacement. -/
def olistLine (l : List Char) : List Char :=
  let ds := l.takeWhile Char.isDigit
  if ds.isEmpty then l
  else
    match l.drop ds.length with
    | '.' :: rest =>
      match plusCapture rest with
      | some content => "<li>".toList ++ content ++ "</li>".toList
      | none => l
    | _ => l

/-- One line of `^(?!<[hulo])(.+)$` with the `<div>` wrap: a nonempty line is
wrapped unless it starts with `'<'` followed by `h`, `u`, `l` or `o`. -/
def paragraphLine (l : List Char) : List Char :=
  match l with
  | [] => []
  | c :: rest =>
    if c = '<' then
      match rest with
      | d :: _ =>
        if d = 'h' || d = 'u' || d = 'l' || d = 'o' then l
        else "<div>".toList ++ l ++ "</div>".toList
      | [] => "<div>".toList ++ l ++ "</div>".toList
    else "<div>".toList ++ l ++ "</div>".toList

/-- Apply a line-anchored (`gm`) whole-line substitution to every line. -/
def mapLines (f : List Char → List Char) (s : List Char) : List Char :=
  joinNL ((splitRN s).map f)

/-- The lazy inner body of a delimited pair: the earliest closing token after
at least one captured character, none of the captured characters being a line
terminator (regex `.`). -/
def findCloseGo (closeT : List Char) : Nat → List Char → List Char →
    Option (List Char × List Char)
  | 0, _, _ => none
  | fuel + 1, accRev, s =>
    if closeT.isPrefixOf s then some (accRev.reverse, s.drop closeT.length)
    else
      match s with
      | [] => none
      | c :: tl => if isLineTerm c then none else findCloseGo closeT fuel (c :: accRev) tl

def findClose (closeT : List Char) : List Char → Option (List Char × List Char)
  | [] => none
  | c :: tl =>
    if isLineTerm c then none else findCloseGo closeT (tl.length + 1) [c] tl

/-- A global replace of `open(.+?)close` by `pre $1 post` (used for bold,
italic and inline code): scan left to right, at each position try the opening
token followed by the lazy body; on success resume after the match. -/
def replacePair (openT closeT pre post : List Char) : Nat → List Char → List Char
  | 0, s => s
  | _, [] => []
  | fuel + 1, c :: tl =>
    if openT.isPrefixOf (c :: tl) then
      match findClose closeT ((c :: tl).drop openT.length) with
      | some (between, rest) =>
        pre ++ between ++ post ++ replacePair openT closeT pre post fuel rest
      | none => c :: replacePair openT closeT pre post fuel tl
    else c :: replacePair openT closeT pre post fuel tl

/-- The link replace `\[([^\]]+)\]\(([^)]+)\)` → `<a href="$2">$1</a>`. -/
def linksGo : Nat → List Char → List Char
  | 0, s => s
  | _, [] => []
  | fuel + 1, c :: tl =>
    if c = '[' then
      let t := tl.takeWhile fun d => !(d = ']')
      let afterT := tl.drop t.length
      match afterT with
      | ']' :: '(' :: r2 =>
        let u := r2.takeWhile fun d => !(d = ')')
        let afterU := r2.drop u.length
        match afterU with
        | ')' :: rest =>
          if t.isEmpty || u.isEmpty then c :: linksGo fuel tl
          else
            "<a href=\"".toList ++ u ++ "\">".toList ++ t ++ "</a>".toList ++
              linksGo fuel rest
        | _ => c :: linksGo fuel tl
      | _ => c :: linksGo fuel tl
    else c :: linksGo fuel tl

/-- One repetition `<li>.+?<\/li>\n?` of the list-wrapping pattern, returning
the matched text verbatim and the rest. -/
def liOne (s : List Char) : Option (List Char × List Char) :=
  if ("<li>".toList).isPrefixOf s then
    match findClose "</li>".toList (s.drop 4) with
    | some (between, rest) =>
      match rest with
      | '\n' :: rest2 =>
        some ("<li>".toList ++ between ++ "</li>".toList ++ ['\n'], rest2)
      | _ => some ("<li>".toList ++ between ++ "</li>".toList, rest)
    | none => none
  else none

/-- The greedy `+` over `liOne`: as many consecutive repetitions as possible. -/
def liRun : Nat → List Char → Option (List Char × List Char)
  | 0, _ => none
  | fuel + 1, s =>
    match liOne s with
    | none => none
    | some (t, rest) =>
      match liRun fuel rest with
      | some (t2, rest2) => some (t ++ t2, rest2)
      | none => some (t, rest)

/-- The global replace `((?:<li>.+?<\/li>\n?)+)` → `<ul>$1</ul>`. -/
def wrapLiGo : Nat → List Char → List Char
  | 0, s => s
  | _, [] => []
  | fuel + 1, c :: tl =>
    match liRun (c :: tl).length (c :: tl) with
    | some (run, rest) => "<ul>".toList ++ run ++ "</ul>".toList ++ wrapLiGo fuel rest
    | none => c :: wrapLiGo fuel tl

/-- The substitution pipeline of `renderContent` after the emptiness guard,
in source order. -/
def renderMarkup (text : List Char) : List Char :=
  let s1 := escapeHtml text
  let s2 := mapLines headingLine s1
  let s3 := replacePair "**".toList "**".toList "<strong>".toList "</strong>".toList s2.length s2
  let s4 := replacePair "*".toList "*".toList "<em>".toList "</em>".toList s3.length s3
  let s5 := replacePair "`".toList "`".toList "<code>".toList "</code>".toList s4.length s4
  let s6 := linksGo s5.length s5
  let s7 := mapLines ulistLine s6
  let s8 := mapLines olistLine s7
  let s9 := wrapLiGo s8.length s8
  let s10 := mapLines paragraphLine s9
  s10.flatMap fun c => if c = '\n' then "<br>".toList else [c]

/-- `ColumnsWidget.renderContent`: a column whose text trims to the empty
string renders as the single empty-line marker `<br>`. -/
def renderContent (text : List Char) : List Char :=
  if (trimChars text).isEmpty then "<br>".toList
  else renderMarkup text

/-! ## Basic facts about the matchers -/

theorem matchLitCI_length {lit s r : List Char} (h : matchLitCI lit s = some r) :
    r.length ≤ s.length := by
  induction lit generalizing s with
  | nil => cases h; exact le_rfl
  | cons c cs ih =>
    cases s with
    | nil => cases h
    | cons d ds =>
      unfold matchLitCI at h
      split at h
      · exact le_trans (ih h) (Nat.le_succ _)
      · cases h

theorem matchTwoPercents_length {s r : List Char} (h : matchTwoPercents s = some r) :
    r.length + 2 = s.length := by
  unfold matchTwoPercents at h
  split at h
  · cases h; simp
  · cases h

theorem percentOnceTwice_length {s r : List Char} (h : percentOnceTwice s = some r) :
    r.length < s.length := by
  unfold percentOnceTwice at h
  split at h
  · cases h; simp only [List.length_cons]; omega
  · cases h; simp only [List.length_cons]; omega
  · cases h

theorem matchStartAt_length {s rem : List Char} {n : Nat}
    (h : matchStartAt s = some (rem, n)) : rem.length < s.length := by
  unfold matchStartAt at h
  obtain ⟨r1, h1, h⟩ := Option.bind_eq_some.mp h
  obtain ⟨r3, h3, h⟩ := Option.bind_eq_some.mp h
  have hr1 := matchTwoPercents_length h1
  have hr3 : r3.length ≤ r1.length :=
    le_trans (matchLitCI_length h3) (List.dropWhile_sublist _).length_le
  split at h
  · cases h
  · dsimp only at h
    split at h
    · cases h
    · obtain ⟨r7, h7, heq⟩ := Option.map_eq_some'.mp h
      cases heq
      have h7' := percentOnceTwice_length h7
      have hA : (((r3.dropWhile jsSpace).drop
          ((r3.dropWhile jsSpace).takeWhile Char.isDigit).length).dropWhile jsSpace).length
          ≤ ((r3.dropWhile jsSpace).drop
            ((r3.dropWhile jsSpace).takeWhile Char.isDigit).length).length :=
        (List.dropWhile_sublist _).length_le
      have hB : ((r3.dropWhile jsSpace).drop
          ((r3.dropWhile jsSpace).takeWhile Char.isDigit).length).length
          ≤ (r3.dropWhile jsSpace).length := by
        simp [List.length_drop]
      have hC : (r3.dropWhile jsSpace).length ≤ r3.length :=
        (List.dropWhile_sublist _).length_le
      omega

theorem matchEndAt_length {s rem : List Char} (h : matchEndAt s = some rem) :
    rem.length < s.length := by
  unfold matchEndAt at h
  obtain ⟨r1, h1, h⟩ := Option.bind_eq_some.mp h
  obtain ⟨r3, h3, h⟩ := Option.bind_eq_some.mp h
  have hr1 := matchTwoPercents_length h1
  have hr3 : r3.length ≤ r1.length :=
    le_trans (matchLitCI_length h3) (List.dropWhile_sublist _).length_le
  have h5 := percentOnceTwice_length h
  have : (r3.dropWhile jsSpace).length ≤ r3.length := (List.dropWhile_sublist _).length_le
  omega

theorem findStartAux_bounds {l : List Char} {i idx len n : Nat}
    (h : findStartAux l i = some (idx, len, n)) : i ≤ idx ∧ 1 ≤ len := by
  induction l generalizing i with
  | nil => cases h
  | cons c tl ih =>
    unfold findStartAux at h
    revert h
    cases hm : matchStartAt (c :: tl) with
    | some rn =>
      intro h
      cases h
      exact ⟨le_rfl, by have := @matchStartAt_length (c :: tl) rn.1 rn.2
                          (by simpa using hm)
                        omega⟩
    | none =>
      intro h
      obtain ⟨h1, h2⟩ := ih h
      exact ⟨by omega, h2⟩

theorem findEndAux_bounds {l : List Char} {i idx len : Nat}
    (h : findEndAux l i = some (idx, len)) : i ≤ idx ∧ 1 ≤ len := by
  induction l generalizing i with
  | nil => cases h
  | cons c tl ih =>
    unfold findEndAux at h
    revert h
    cases hm : matchEndAt (c :: tl) with
    | some rn =>
      intro h
      cases h
      exact ⟨le_rfl, by have := matchEndAt_length hm; omega⟩
    | none =>
      intro h
      obtain ⟨h1, h2⟩ := ih h
      exact ⟨by omega, h2⟩

/-! ## C10: whitespace-only panes render as the empty-line marker -/

/-- C10: `renderContent` returns the single empty-line marker `<br>` not only
for the empty string but for every input consisting solely of whitespace
characters, because the emptiness test trims the input first. -/
theorem renderContent_whitespace_br (t : List Char) (h : ∀ c ∈ t, jsSpace c = true) :
    renderContent t = "<br>".toList := by
  have hdrop : t.dropWhile jsSpace = [] := List.dropWhile_eq_nil_iff.mpr h
  have htrim : trimChars t = [] := by
    unfold trimChars
    rw [hdrop]
    rfl
  unfold renderContent
  rw [htrim]
  rfl

theorem renderContent_whitespace_br_witness :
    renderContent [' ', '\t', '\n', ' '] = "<br>".toList :=
  renderContent_whitespace_br [' ', '\t', '\n', ' '] (by decide)

/-! ## C8: the in-progress guard is always cleared -/

/-- C8: a single call to `syncToSource` from a non-updating state leaves the
guard cleared, on every path: extraction failure, the no-change early return,
a dispatch failure, and the successful dispatch. -/
theorem syncToSource_clears_guard (st : WidgetState)
    (extracted : Except Unit (List (List Char))) (dispatchThrows : Bool)
    (docText : List Char) (h : st.isUpdating = false) :
    (syncToSource st extracted dispatchThrows docText).1.isUpdating = false := by
  unfold syncToSource
  rw [h]
  cases hc : st.hasContainer with
  | false => simp [h]
  | true =>
    cases extracted with
    | error e => simp
    | ok P =>
      by_cases hch : hasChangesCheck P st.columnContents
      · cases dispatchThrows <;> simp [hch]
      · simp [hch]

theorem syncToSource_clears_guard_witness :
    (syncToSource
      ⟨false, true, [['A']], ⟨1, [['A']], 0, 10, 5, 5, [], []⟩⟩
      (Except.error ()) true []).1.isUpdating = false :=
  syncToSource_clears_guard _ _ _ _ rfl

/-! ## C4: flushing is idempotent -/

theorem hasChangesCheck_self (P : List (List Char)) : hasChangesCheck P P = false := by
  unfold hasChangesCheck
  rw [List.any_eq_false]
  intro ci hci
  obtain ⟨i, a⟩ := ci
  have hsome : P[i]? = some a := List.mk_mem_enum_iff_getElem?.mp hci
  rw [List.getD_eq_getElem?_getD, hsome]
  simp

/-- C4: with no intervening pane edit, a second flush dispatches no mutation
(so two flushes produce at most the first one's single mutation); a flush
whose extracted contents equal the cached contents dispatches nothing, and a
flush with a genuine change dispatches exactly one mutation. -/
theorem syncToSource_idempotent (st : WidgetState) (P : List (List Char))
    (doc docLater : List Char) (hGuard : st.isUpdating = false)
    (hCont : st.hasContainer = true) :
    (syncToSource (syncToSource st (.ok P) false doc).1 (.ok P) false docLater).2 = none
    ∧ (hasChangesCheck P st.columnContents = false →
        (syncToSource st (.ok P) false doc).2 = none)
    ∧ (hasChangesCheck P st.columnContents = true →
        ((syncToSource st (.ok P) false doc).2.isSome = true
          ∧ (syncToSource st (.ok P) false doc).1.columnContents = P)) := by
  by_cases hch : hasChangesCheck P st.columnContents
  · have h1 : (syncToSource st (.ok P) false doc).1 =
        { st with isUpdating := false, columnContents := P } := by
      unfold syncToSource
      rw [hGuard, hCont]
      simp [hch]
    have h2 : (syncToSource st (.ok P) false doc).2.isSome = true := by
      unfold syncToSource
      rw [hGuard, hCont]
      simp [hch]
    refine ⟨?_, ?_, ?_⟩
    · rw [h1]
      unfold syncToSource
      simp [hasChangesCheck_self, hCont]
    · intro hcontra
      rw [hch] at hcontra
      exact Bool.noConfusion hcontra
    · exact fun _ => ⟨h2, by rw [h1]⟩
  · have hch' : hasChangesCheck P st.columnContents = false := by
      simpa using hch
    have h1 : syncToSource st (.ok P) false doc = ({ st with isUpdating := false }, none) := by
      unfold syncToSource
      rw [hGuard, hCont]
      simp [hch']
    refine ⟨?_, ?_, ?_⟩
    · rw [h1]
      unfold syncToSource
      simp [hch', hCont]
    · intro _
      rw [h1]
    · intro hcontra
      rw [hch'] at hcontra
      exact Bool.noConfusion hcontra

theorem syncToSource_idempotent_witness :
    ((syncToSource (syncToSource
        ⟨false, true, [['A']], ⟨1, [['A']], 0, 10, 5, 5, [], []⟩⟩
        (.ok [['B']]) false []).1 (.ok [['B']]) false []).2 = none)
    ∧ (hasChangesCheck [['B']] [['A']] = true →
        ((syncToSource ⟨false, true, [['A']], ⟨1, [['A']], 0, 10, 5, 5, [], []⟩⟩
          (.ok [['B']]) false []).2.isSome = true
        ∧ (syncToSource ⟨false, true, [['A']], ⟨1, [['A']], 0, 10, 5, 5, [], []⟩⟩
          (.ok [['B']]) false []).1.columnContents = [['B']])) :=
  ⟨(syncToSource_idempotent ⟨false, true, [['A']], ⟨1, [['A']], 0, 10, 5, 5, [], []⟩⟩
      [['B']] [] [] rfl rfl).1,
   (syncToSource_idempotent ⟨false, true, [['A']], ⟨1, [['A']], 0, 10, 5, 5, [], []⟩⟩
      [['B']] [] [] rfl rfl).2.2⟩

/-! ## C9: blocks are emitted in order with disjoint spans -/

theorem findBlocksGo_spans (text : List Char) :
    ∀ fuel i, (∀ b ∈ findBlocksGo text fuel i, i ≤ b.startPos ∧ b.startPos < b.endPos)
      ∧ (findBlocksGo text fuel i).Pairwise
          (fun a b => a.startPos < b.startPos ∧ a.endPos ≤ b.startPos) := by
  intro fuel
  induction fuel with
  | zero => intro i; simp [findBlocksGo]
  | succ fuel ih =>
    intro i
    unfold findBlocksGo
    cases hs : findStartAux (text.drop i) i with
    | none => simp
    | some v =>
      obtain ⟨idx, len, num⟩ := v
      obtain ⟨hidx, hlen⟩ := findStartAux_bounds hs
      simp only
      split
      · obtain ⟨ihA, ihB⟩ := ih (idx + len)
        exact ⟨fun b hb => ⟨le_trans (by omega) (ihA b hb).1, (ihA b hb).2⟩, ihB⟩
      · cases he : findEndAux (text.drop (idx + len)) (idx + len) with
        | none =>
          simp only
          obtain ⟨ihA, ihB⟩ := ih (idx + len)
          exact ⟨fun b hb => ⟨le_trans (by omega) (ihA b hb).1, (ihA b hb).2⟩, ihB⟩
        | some e =>
          obtain ⟨endIdx, endLen⟩ := e
          obtain ⟨hei, hel⟩ := findEndAux_bounds he
          simp only
          obtain ⟨ihA, ihB⟩ := ih (endIdx + endLen)
          constructor
          · intro b hb
            rcases List.mem_cons.mp hb with rfl | hb
            · exact ⟨hidx, by simp only; omega⟩
            · have hb' := ihA b hb
              exact ⟨by omega, hb'.2⟩
          · refine List.pairwise_cons.mpr ⟨?_, ihB⟩
            intro b hb
            have hb' := ihA b hb
            refine ⟨?_, ?_⟩ <;> simp only <;> omega

/-- C9: the blocks returned by `findColumnsBlocks` have strictly increasing
start positions and pairwise disjoint `[startPos, endPos)` spans. -/
theorem findColumnsBlocks_spans (text : List Char) :
    (∀ b ∈ findColumnsBlocks text, b.startPos < b.endPos)
    ∧ (findColumnsBlocks text).Pairwise
        (fun a b => a.startPos < b.startPos ∧ a.endPos ≤ b.startPos) := by
  obtain ⟨hA, hB⟩ := findBlocksGo_spans text (text.length + 1) 0
  exact ⟨fun b hb => (hA b hb).2, hB⟩

/-! ## C7: unterminated start markers yield no block -/

theorem findEndAux_none_drop {l : List Char} {i : Nat} (h : findEndAux l i = none) :
    ∀ k j, findEndAux (l.drop k) j = none := by
  induction l generalizing i with
  | nil => intro k j; simp [findEndAux]
  | cons c tl ih =>
    unfold findEndAux at h
    revert h
    cases hm : matchEndAt (c :: tl) with
    | some rem => intro h; cases h
    | none =>
      intro h
      intro k j
      cases k with
      | zero =>
        simp only [List.drop_zero]
        unfold findEndAux
        rw [hm]
        exact ih h 0 (j + 1)
      | succ k => exact ih h k j

theorem findBlocksGo_no_end (text : List Char) (h : findEndAux text 0 = none) :
    ∀ fuel i, findBlocksGo text fuel i = [] := by
  intro fuel
  induction fuel with
  | zero => intro i; simp [findBlocksGo]
  | succ fuel ih =>
    intro i
    unfold findBlocksGo
    cases hs : findStartAux (text.drop i) i with
    | none => rfl
    | some v =>
      obtain ⟨idx, len, num⟩ := v
      simp only
      split
      · exact ih (idx + len)
      · rw [findEndAux_none_drop h (idx + len) (idx + len)]
        exact ih (idx + len)

/-- C7: a document with no end marker anywhere yields no blocks at all (every
start marker is dropped and scanning continues past it), and a start marker
after the last end marker is likewise dropped while earlier complete blocks
are still found.  (The scan itself is a total function: it never throws.) -/
theorem findColumnsBlocks_unterminated :
    (∀ text, findEndAux text 0 = none → findColumnsBlocks text = [])
    ∧ (findColumnsBlocks
        ("%% columns:start 1 %%\nA\n%% columns:end %%\n%% columns:start 2 %%\nB".toList)).map
        ColumnsBlock.numColumns = [1] := by
  constructor
  · intro text h
    exact findBlocksGo_no_end text h (text.length + 1) 0
  · decide

theorem findColumnsBlocks_unterminated_witness :
    findEndAux ("zz %% columns:start 3 %%\ncontent".toList) 0 = none ∧
    findColumnsBlocks ("zz %% columns:start 3 %%\ncontent".toList) = [] :=
  ⟨by decide, findColumnsBlocks_unterminated.1 _ (by decide)⟩

/-! ## C6: the column count must lie in 1..6 -/

theorem findBlocksGo_num_range (text : List Char) :
    ∀ fuel i, ∀ b ∈ findBlocksGo text fuel i, 1 ≤ b.numColumns ∧ b.numColumns ≤ 6 := by
  intro fuel
  induction fuel with
  | zero => intro i; simp [findBlocksGo]
  | succ fuel ih =>
    intro i
    unfold findBlocksGo
    cases hs : findStartAux (text.drop i) i with
    | none => simp
    | some v =>
      obtain ⟨idx, len, num⟩ := v
      simp only
      split
      · exact ih (idx + len)
      · rename_i hnum
        cases he : findEndAux (text.drop (idx + len)) (idx + len) with
        | none => exact ih (idx + len)
        | some e =>
          obtain ⟨endIdx, endLen⟩ := e
          simp only
          intro b hb
          rcases List.mem_cons.mp hb with rfl | hb
          · simp only [Bool.or_eq_true, decide_eq_true_eq, not_or, not_lt] at hnum
            exact ⟨hnum.1, hnum.2⟩
          · exact ih (endIdx + endLen) b hb

/-- A one-block test document with the given count digit. -/
def boundsTestDoc (n : Nat) : List Char :=
  joinNL [startLineOf n, ['X'], endLineChars]

/-- C6: every block returned by `findColumnsBlocks` has a column count in
1..6; in particular `columns:start 0` and `columns:start 7` documents produce
no block, while `columns:start 1` through `columns:start 6` each produce
exactly one block with that count. -/
theorem findColumnsBlocks_bounds :
    (∀ text, ∀ b ∈ findColumnsBlocks text, 1 ≤ b.numColumns ∧ b.numColumns ≤ 6)
    ∧ findColumnsBlocks (boundsTestDoc 0) = []
    ∧ findColumnsBlocks (boundsTestDoc 7) = []
    ∧ ∀ n, 1 ≤ n → n ≤ 6 →
        (findColumnsBlocks (boundsTestDoc n)).map ColumnsBlock.numColumns = [n] := by
  refine ⟨fun text => findBlocksGo_num_range text (text.length + 1) 0, by decide, by decide, ?_⟩
  intro n h1 h6
  interval_cases n <;> decide

theorem findColumnsBlocks_bounds_witness :
    (1 ≤ 3 ∧ 3 ≤ 6) ∧
    (findColumnsBlocks (boundsTestDoc 3)).map ColumnsBlock.numColumns = [3] :=
  ⟨by decide, findColumnsBlocks_bounds.2.2.2 3 (by decide) (by decide)⟩

/-! ## C3: what the transaction filter actually rejects -/

def filterTestDoc : List Char :=
  "%% columns:start 2 %%\nA\n--- col ---\nB\n%% columns:end %%".toList

/-- C3 counterexample: the claim says the filter rejects exactly the offsets
strictly inside a hidden body range.  The offset just past the end marker
(here the document length, which equals the block's `endPos`) is strictly
inside no block span, yet the filter rejects an insertion there, because the
code blocks `firstLineEnd < fromA ≤ blockEnd` inclusively. -/
theorem blockCollapsedInput_counterexample :
    blockCollapsedInput true true filterTestDoc
      [(filterTestDoc.length, filterTestDoc.length)] = false
    ∧ ¬ ∃ b ∈ findColumnsBlocks filterTestDoc,
        b.startPos < filterTestDoc.length ∧ filterTestDoc.length < b.endPos := by
  constructor
  · decide
  · decide

/-- C3 amended: the filter rejects a transaction exactly when it is a
document-changing transaction in live preview one of whose changes starts at
an offset `o` with `firstLineEnd < o ≤ blockEnd` for some scanned marker pair
(successive start-marker matches, column count not validated, each paired
with the first end-marker match after it); in particular an insertion at the
offset of the very first marker line (or anywhere in that first line) is
accepted. -/
theorem blockCollapsedInput_amended :
    (∀ lp dc text changes,
      blockCollapsedInput lp dc text changes = false ↔
        lp = true ∧ dc = true ∧ ∃ ch ∈ changes, ∃ pr ∈ collapsedPairs text,
          pr.1 < ch.1 ∧ ch.1 ≤ pr.2)
    ∧ blockCollapsedInput true true filterTestDoc [(0, 0)] = true := by
  constructor
  · intro lp dc text changes
    cases lp with
    | false => simp [blockCollapsedInput]
    | true =>
      cases dc with
      | false => simp [blockCollapsedInput]
      | true =>
        simp [blockCollapsedInput, blockedChangeAt, List.any_eq_true]
  · decide

/-! ## Safe character classes and list helpers for the round-trip proofs -/

/-- Characters allowed in style tokens by the safety predicate of the amended
round-trip claims: lowercase letters and digits. -/
def safeTokenChar (c : Char) : Bool :=
  "abcdefghijklmnopqrstuvwxyz0123456789".toList.contains c

/-- Characters allowed in column text by the safety predicate: token
characters and the space. -/
def safeColChar (c : Char) : Bool := safeTokenChar c || c = ' '

theorem safeTokenChar_mem {c : Char} (h : safeTokenChar c = true) :
    c ∈ "abcdefghijklmnopqrstuvwxyz0123456789".toList := by
  unfold safeTokenChar at h
  exact List.mem_of_elem_eq_true h

theorem safeTokenChar_facts {c : Char} (h : safeTokenChar c = true) :
    jsSpace c = false ∧ payloadChar c = true ∧ c ≠ '\n' ∧ c ≠ '\r' ∧ c ≠ '%' ∧
      c ≠ '|' ∧ c ≠ '-' ∧ c ≠ ':' ∧ isLineTerm c = false := by
  have hm := safeTokenChar_mem h
  have hall : ("abcdefghijklmnopqrstuvwxyz0123456789".toList).all
      (fun c => !jsSpace c && payloadChar c && !(c = '\n') && !(c = '\r') &&
        !(c = '%') && !(c = '|') && !(c = '-') && !(c = ':') && !isLineTerm c) = true := by
    decide
  have := List.all_eq_true.mp hall c hm
  simp only [Bool.and_eq_true, Bool.not_eq_true', decide_eq_true_eq,
    Bool.not_eq_true, decide_eq_false_iff_not] at this
  tauto

theorem safeColChar_facts {c : Char} (h : safeColChar c = true) :
    payloadChar c = true ∧ c ≠ '\n' ∧ c ≠ '\r' ∧ c ≠ '%' ∧ c ≠ '-' ∧ c ≠ ':' ∧
      isLineTerm c = false := by
  unfold safeColChar at h
  rcases Bool.or_eq_true_iff.mp h with ht | hsp
  · obtain ⟨_, h2, h3, h4, h5, _, h7, h8, h9⟩ := safeTokenChar_facts ht
    exact ⟨h2, h3, h4, h5, h7, h8, h9⟩
  · rw [decide_eq_true_iff] at hsp
    subst hsp
    exact ⟨by decide, by decide, by decide, by decide, by decide, by decide, by decide⟩

theorem dropWhile_all_false {p : Char → Bool} {l : List Char}
    (h : ∀ c ∈ l, p c = false) : l.dropWhile p = l := by
  cases l with
  | nil => rfl
  | cons c tl => rw [List.dropWhile_cons, h c (List.mem_cons_self _ _)]; rfl

theorem takeWhile_append_all {p : Char → Bool} {a : List Char} (b : List Char)
    (h : ∀ c ∈ a, p c = true) : (a ++ b).takeWhile p = a ++ b.takeWhile p := by
  induction a with
  | nil => rfl
  | cons c tl ih =>
    rw [List.cons_append, List.takeWhile_cons, h c (List.mem_cons_self _ _)]
    rw [ih fun d hd => h d (List.mem_cons_of_mem _ hd)]
    rfl

theorem dropWhile_append_all {p : Char → Bool} {a : List Char} (b : List Char)
    (h : ∀ c ∈ a, p c = true) : (a ++ b).dropWhile p = b.dropWhile p := by
  induction a with
  | nil => rfl
  | cons c tl ih =>
    rw [List.cons_append, List.dropWhile_cons, h c (List.mem_cons_self _ _)]
    exact ih fun d hd => h d (List.mem_cons_of_mem _ hd)

theorem trimChars_eq_self {l : List Char}
    (h1 : ∀ c, l.head? = some c → jsSpace c = false)
    (h2 : ∀ c, l.getLast? = some c → jsSpace c = false) : trimChars l = l := by
  unfold trimChars
  have hd : l.dropWhile jsSpace = l := by
    cases l with
    | nil => rfl
    | cons c tl => rw [List.dropWhile_cons, h1 c rfl]; rfl
  rw [hd]
  have hr : l.reverse.dropWhile jsSpace = l.reverse := by
    cases hl : l.reverse with
    | nil => rfl
    | cons c tl =>
      have hc : l.getLast? = some c := by rw [← List.head?_reverse, hl]; rfl
      rw [List.dropWhile_cons, h2 c hc]
      rfl
  rw [hr, List.reverse_reverse]

theorem trim_of_nospace {l : List Char} (h : ∀ c ∈ l, jsSpace c = false) :
    trimChars l = l := by
  refine trimChars_eq_self (fun c hc => ?_) (fun c hc => ?_)
  · exact h c (List.mem_of_mem_head? hc)
  · exact h c (List.mem_of_mem_getLast? hc)

theorem trim_token_space {t : List Char} (h : ∀ c ∈ t, jsSpace c = false) :
    trimChars (t ++ [' ']) = t := by
  unfold trimChars
  cases t with
  | nil => decide
  | cons c tl =>
    rw [List.cons_append, List.dropWhile_cons, h c (List.mem_cons_self _ _)]
    simp only [Bool.false_eq_true, if_false]
    have hrev : (c :: (tl ++ [' '])).reverse = ' ' :: (c :: tl).reverse := by
      simp
    rw [hrev, List.dropWhile_cons]
    simp only [show jsSpace ' ' = true by decide, if_true]
    rw [dropWhile_all_false fun d hd => h d (by rw [List.mem_cons]; simpa [Or.comm] using hd)]
    simp

/-! ## Line splitting of clean text -/

/-- A line with no separator characters inside. -/
abbrev cleanLine (l : List Char) : Prop := ∀ c ∈ l, c ≠ '\n' ∧ c ≠ '\r'

theorem splitRN_cons_ne {c : Char} (l : List Char) (h1 : c ≠ '\n') (h2 : c ≠ '\r') :
    splitRN (c :: l) =
      match splitRN l with
      | t :: ts => (c :: t) :: ts
      | [] => [[c]] := by
  rw [splitRN.eq_def]
  split
  · rename_i heq
    exact (List.cons_ne_nil _ _ heq).elim
  · rename_i heq
    injection heq with ha hb
    exact absurd ha h2
  · rename_i heq
    injection heq with ha hb
    exact absurd ha h1
  · rename_i heq
    injection heq with ha hb
    subst ha
    subst hb
    rfl

theorem splitRN_clean {l : List Char} (h : cleanLine l) : splitRN l = [l] := by
  induction l with
  | nil => rfl
  | cons c tl ih =>
    have hc := h c (List.mem_cons_self _ _)
    rw [splitRN_cons_ne tl hc.1 hc.2, ih fun d hd => h d (List.mem_cons_of_mem _ hd)]

theorem splitRN_append {l : List Char} (rest : List Char) (h : cleanLine l) :
    splitRN (l ++ '\n' :: rest) = l :: splitRN rest := by
  induction l with
  | nil => rfl
  | cons c tl ih =>
    have hc := h c (List.mem_cons_self _ _)
    rw [List.cons_append, splitRN_cons_ne _ hc.1 hc.2,
      ih fun d hd => h d (List.mem_cons_of_mem _ hd)]

theorem joinNL_cons₂ (a b : List Char) (t : List (List Char)) :
    joinNL (a :: b :: t) = a ++ '\n' :: joinNL (b :: t) := by
  simp [joinNL, List.intercalate]

theorem joinNL_single (a : List Char) : joinNL [a] = a := by
  simp [joinNL, List.intercalate]

theorem splitRN_joinNL {lines : List (List Char)} (hne : lines ≠ [])
    (h : ∀ l ∈ lines, cleanLine l) : splitRN (joinNL lines) = lines := by
  induction lines with
  | nil => exact absurd rfl hne
  | cons a t ih =>
    cases t with
    | nil => rw [joinNL_single, splitRN_clean (h a (List.mem_cons_self _ _))]
    | cons b t2 =>
      rw [joinNL_cons₂, splitRN_append _ (h a (List.mem_cons_self _ _)),
        ih (List.cons_ne_nil _ _) fun l hl => h l (List.mem_cons_of_mem _ hl)]

/-! ## Pipe splitting of safe tokens -/

theorem splitOnPipe_cons_ne {c : Char} (l : List Char) (h : c ≠ '|') :
    splitOnPipe (c :: l) =
      match splitOnPipe l with
      | t :: ts => (c :: t) :: ts
      | [] => [[c]] := by
  rw [splitOnPipe.eq_def]
  split
  · rename_i heq
    exact (List.cons_ne_nil _ _ heq).elim
  · rename_i heq
    injection heq with ha hb
    exact absurd ha h
  · rename_i heq
    injection heq with ha hb
    subst ha
    subst hb
    rfl

theorem splitOnPipe_append_nopipe {a : List Char} {b : List Char} {t : List Char}
    {ts : List (List Char)} (h : ∀ c ∈ a, c ≠ '|') (hb : splitOnPipe b = t :: ts) :
    splitOnPipe (a ++ b) = (a ++ t) :: ts := by
  induction a with
  | nil => simpa using hb
  | cons c tl ih =>
    rw [List.cons_append, splitOnPipe_cons_ne _ (h c (List.mem_cons_self _ _)),
      ih fun d hd => h d (List.mem_cons_of_mem _ hd)]
    rfl

theorem joinPipe_cons₂ (a b : List Char) (t : List (List Char)) :
    joinPipe (a :: b :: t) = a ++ '|' :: joinPipe (b :: t) := by
  simp [joinPipe, List.intercalate]

theorem joinPipe_single (a : List Char) : joinPipe [a] = a := by
  simp [joinPipe, List.intercalate]

/-- Splitting the serialized token list (with the trailing space the metadata
capture always carries) and trimming recovers the tokens. -/
theorem splitTokens_joinPipe {toks : List (List Char)} (hne : toks ≠ [])
    (h : ∀ t ∈ toks, ∀ c ∈ t, safeTokenChar c = true) :
    splitTokens (joinPipe toks ++ [' ']) = toks := by
  induction toks with
  | nil => exact absurd rfl hne
  | cons t rest ih =>
    have hpipe : ∀ c ∈ t, c ≠ '|' :=
      fun c hc => (safeTokenChar_facts (h t (List.mem_cons_self _ _) c hc)).2.2.2.2.2.1
    have hnospace : ∀ c ∈ t, jsSpace c = false :=
      fun c hc => (safeTokenChar_facts (h t (List.mem_cons_self _ _) c hc)).1
    cases rest with
    | nil =>
      rw [joinPipe_single]
      unfold splitTokens
      rw [splitOnPipe_append_nopipe hpipe (by decide : splitOnPipe [' '] = [' '] :: [])]
      simp only [List.map]
      rw [trim_token_space hnospace]
    | cons t2 rest2 =>
      rw [joinPipe_cons₂, List.append_assoc, List.cons_append]
      unfold splitTokens
      have hrec := ih (List.cons_ne_nil _ _) fun u hu => h u (List.mem_cons_of_mem _ hu)
      unfold splitTokens at hrec
      cases hsp : splitOnPipe (joinPipe (t2 :: rest2) ++ [' ']) with
      | nil => rw [hsp] at hrec; cases hrec
      | cons p ps =>
        rw [hsp] at hrec
        have hcons : splitOnPipe ('|' :: (joinPipe (t2 :: rest2) ++ [' '])) =
            [] :: p :: ps := by
          rw [show splitOnPipe ('|' :: (joinPipe (t2 :: rest2) ++ [' '])) =
            [] :: splitOnPipe (joinPipe (t2 :: rest2) ++ [' ']) from rfl, hsp]
        rw [splitOnPipe_append_nopipe hpipe hcons]
        simp only [List.map, List.append_nil]
        rw [trim_of_nospace hnospace]
        simp only [List.map] at hrec
        rw [List.cons.injEq]
        exact ⟨rfl, hrec⟩

/-! ## The metadata-line matchers on serialized lines -/

theorem payloadDollar_capture {J : List Char}
    (h : ∀ c ∈ J, payloadChar c = true ∧ jsSpace c = false) :
    matchMetaPayloadDollar (' ' :: (J ++ [' ', '%', '%'])) = some (J ++ [' ']) := by
  cases J with
  | nil => decide
  | cons c0 tl =>
    have hpc : ∀ d ∈ (c0 :: tl) ++ [' '], payloadChar d = true := by
      intro d hd
      rcases List.mem_append.mp hd with hd | hd
      · exact (h d hd).1
      · simp only [List.mem_singleton] at hd
        subst hd
        decide
    unfold matchMetaPayloadDollar
    rw [List.cons_append,
      List.takeWhile_cons_of_pos (by decide : jsSpace ' ' = true),
      List.takeWhile_cons_of_neg (by simp [(h c0 (List.mem_cons_self _ _)).2]),
      List.dropWhile_cons_of_pos (by decide : jsSpace ' ' = true),
      List.dropWhile_cons_of_neg (by simp [(h c0 (List.mem_cons_self _ _)).2])]
    simp only [List.isEmpty_cons, Bool.false_eq_true, if_false]
    have hsplit : (c0 :: tl) ++ [' ', '%', '%'] = ((c0 :: tl) ++ [' ']) ++ ['%', '%'] := by
      simp
    rw [List.cons_append] at hsplit
    rw [hsplit, takeWhile_append_all _ hpc]
    have : List.takeWhile payloadChar ['%', '%'] = [] := by decide
    rw [this, List.append_nil]
    simp only [List.isEmpty_eq_true, List.append_eq_nil, List.cons_ne_nil, false_and,
      if_false]
    rw [List.drop_left]
    have : metaSuffixOk ['%', '%'] = true := by decide
    rw [this]
    simp

theorem payloadLoose_capture {J : List Char} (rest : List Char)
    (h : ∀ c ∈ J, payloadChar c = true ∧ jsSpace c = false) :
    matchLoosePayload (' ' :: (J ++ (' ' :: '%' :: '%' :: rest))) = some (J ++ [' ']) := by
  cases J with
  | nil =>
    unfold matchLoosePayload
    rw [List.nil_append,
      List.takeWhile_cons_of_pos (by decide : jsSpace ' ' = true),
      List.takeWhile_cons_of_pos (by decide : jsSpace ' ' = true),
      List.takeWhile_cons_of_neg (by decide),
      List.dropWhile_cons_of_pos (by decide : jsSpace ' ' = true),
      List.dropWhile_cons_of_pos (by decide : jsSpace ' ' = true),
      List.dropWhile_cons_of_neg (by decide)]
    simp only [List.isEmpty_cons, Bool.false_eq_true, if_false,
      List.takeWhile_cons_of_neg (by decide : ¬payloadChar '%' = true)]
    simp only [List.isEmpty_nil, if_true]
    rfl
  | cons c0 tl =>
    have hpc : ∀ d ∈ (c0 :: tl) ++ [' '], payloadChar d = true := by
      intro d hd
      rcases List.mem_append.mp hd with hd | hd
      · exact (h d hd).1
      · simp only [List.mem_singleton] at hd
        subst hd
        decide
    unfold matchLoosePayload
    rw [List.cons_append,
      List.takeWhile_cons_of_pos (by decide : jsSpace ' ' = true),
      List.takeWhile_cons_of_neg (by simp [(h c0 (List.mem_cons_self _ _)).2]),
      List.dropWhile_cons_of_pos (by decide : jsSpace ' ' = true),
      List.dropWhile_cons_of_neg (by simp [(h c0 (List.mem_cons_self _ _)).2])]
    simp only [List.isEmpty_cons, Bool.false_eq_true, if_false]
    have hsplit : (c0 :: tl) ++ (' ' :: '%' :: '%' :: rest) =
        ((c0 :: tl) ++ [' ']) ++ ('%' :: '%' :: rest) := by
      simp
    rw [List.cons_append] at hsplit
    rw [hsplit, takeWhile_append_all _ hpc,
      List.takeWhile_cons_of_neg (by decide : ¬payloadChar '%' = true), List.append_nil]
    simp only [List.isEmpty_eq_true, List.append_eq_nil, List.cons_ne_nil, false_and,
      if_false]
    rw [List.drop_left]
    have : loosePercentOk ('%' :: '%' :: rest) = true := rfl
    rw [this]
    simp

theorem matchLitCI_self (lit r : List Char) : matchLitCI lit (lit ++ r) = some r := by
  induction lit with
  | nil => rfl
  | cons c cs ih => simp [matchLitCI, ih]

theorem joinPipe_chars {toks : List (List Char)}
    (h : ∀ t ∈ toks, ∀ c ∈ t, safeTokenChar c = true) :
    ∀ c ∈ joinPipe toks, safeTokenChar c = true ∨ c = '|' := by
  induction toks with
  | nil => intro c hc; cases hc
  | cons t rest ih =>
    cases rest with
    | nil =>
      rw [joinPipe_single]
      intro c hc
      exact Or.inl (h t (List.mem_cons_self _ _) c hc)
    | cons t2 rest2 =>
      rw [joinPipe_cons₂]
      intro c hc
      rcases List.mem_append.mp hc with hc | hc
      · exact Or.inl (h t (List.mem_cons_self _ _) c hc)
      · rcases List.mem_cons.mp hc with rfl | hc
        · exact Or.inr rfl
        · exact ih (fun u hu => h u (List.mem_cons_of_mem _ hu)) c hc

theorem joinPipe_payload {toks : List (List Char)}
    (h : ∀ t ∈ toks, ∀ c ∈ t, safeTokenChar c = true) :
    ∀ c ∈ joinPipe toks, payloadChar c = true ∧ jsSpace c = false := by
  intro c hc
  rcases joinPipe_chars h c hc with ht | rfl
  · exact ⟨(safeTokenChar_facts ht).2.1, (safeTokenChar_facts ht).1⟩
  · exact ⟨by decide, by decide⟩

/-- The anchored metadata regex applied to a serialized metadata line: the
capture is the joined token list plus the trailing space. -/
theorem metaLine_match {hd : Char} (tlit : List Char) (hhd : jsSpace hd = false)
    {J : List Char} (hJ : ∀ c ∈ J, payloadChar c = true ∧ jsSpace c = false) :
    matchMetaLine (hd :: tlit)
      ('%' :: '%' :: ' ' :: ((hd :: tlit) ++ (' ' :: (J ++ [' ', '%', '%'])))) =
      some (J ++ [' ']) := by
  unfold matchMetaLine
  rw [show matchTwoPercents
      ('%' :: '%' :: ' ' :: ((hd :: tlit) ++ (' ' :: (J ++ [' ', '%', '%'])))) =
      some (' ' :: ((hd :: tlit) ++ (' ' :: (J ++ [' ', '%', '%'])))) from rfl]
  rw [Option.some_bind,
    List.dropWhile_cons_of_pos (by decide : jsSpace ' ' = true),
    List.cons_append,
    List.dropWhile_cons_of_neg (by simp [hhd]),
    ← List.cons_append, matchLitCI_self, Option.some_bind]
  exact payloadDollar_capture hJ

theorem matchTwoPercents_no_percent {l : List Char} (h : ∀ c ∈ l, c ≠ '%') :
    matchTwoPercents l = none := by
  rw [matchTwoPercents.eq_def]
  split
  · exact absurd rfl (h '%' (List.mem_cons_self _ _))
  · rfl

theorem trimChars_subset (l : List Char) : ∀ c ∈ trimChars l, c ∈ l := by
  intro c hc
  unfold trimChars at hc
  rw [List.mem_reverse] at hc
  have h1 := (List.dropWhile_sublist (l := (l.dropWhile jsSpace).reverse) jsSpace).subset hc
  rw [List.mem_reverse] at h1
  exact (List.dropWhile_sublist jsSpace).subset h1

/-- The parser's own recognizer for a colors metadata line (the trimmed line
matched against the anchored colors regex). -/
def isColorsMetaLine (l : List Char) : Bool :=
  (matchMetaLine litColumnsColors (trimChars l)).isSome

/-- The parser's own recognizer for a borders metadata line. -/
def isBordersMetaLine (l : List Char) : Bool :=
  (matchMetaLine litColumnsBorders (trimChars l)).isSome

theorem trim_colorsLine (n : Nat) (colors : List (List Char)) :
    trimChars (colorsLineOf n colors) = colorsLineOf n colors := by
  refine trimChars_eq_self (fun c hc => ?_) (fun c hc => ?_)
  · rw [show (colorsLineOf n colors).head? = some '%' from rfl] at hc
    cases hc
    decide
  · unfold colorsLineOf at hc
    rw [List.getLast?_append] at hc
    rw [show (" %%".toList.getLast?) = some '%' from rfl] at hc
    cases hc
    decide

theorem trim_bordersLine (n : Nat) (borders : List (List Char)) :
    trimChars (bordersLineOf n borders) = bordersLineOf n borders := by
  refine trimChars_eq_self (fun c hc => ?_) (fun c hc => ?_)
  · rw [show (bordersLineOf n borders).head? = some '%' from rfl] at hc
    cases hc
    decide
  · unfold bordersLineOf at hc
    rw [List.getLast?_append] at hc
    rw [show (" %%".toList.getLast?) = some '%' from rfl] at hc
    cases hc
    decide

theorem matchMetaLine_colorsLine (n : Nat) {colors : List (List Char)}
    (h : ∀ t ∈ colors, ∀ c ∈ t, safeTokenChar c = true) :
    matchMetaLine litColumnsColors (colorsLineOf n colors) =
      some (joinPipe (colors.take n) ++ [' ']) := by
  have hJ : ∀ c ∈ joinPipe (colors.take n), payloadChar c = true ∧ jsSpace c = false :=
    joinPipe_payload fun t ht => h t (List.mem_of_mem_take ht)
  have hstruct : colorsLineOf n colors =
      '%' :: '%' :: ' ' ::
        (litColumnsColors ++ (' ' :: (joinPipe (colors.take n) ++ [' ', '%', '%']))) := rfl
  rw [hstruct]
  exact metaLine_match _ (by decide) hJ

theorem matchMetaLine_bordersLine (n : Nat) {borders : List (List Char)}
    (h : ∀ t ∈ borders, ∀ c ∈ t, safeTokenChar c = true) :
    matchMetaLine litColumnsBorders (bordersLineOf n borders) =
      some (joinPipe (borders.take n) ++ [' ']) := by
  have hJ : ∀ c ∈ joinPipe (borders.take n), payloadChar c = true ∧ jsSpace c = false :=
    joinPipe_payload fun t ht => h t (List.mem_of_mem_take ht)
  have hstruct : bordersLineOf n borders =
      '%' :: '%' :: ' ' ::
        (litColumnsBorders ++ (' ' :: (joinPipe (borders.take n) ++ [' ', '%', '%']))) := rfl
  rw [hstruct]
  exact metaLine_match _ (by decide) hJ

theorem isColorsMetaLine_colorsLine (n : Nat) {colors : List (List Char)}
    (h : ∀ t ∈ colors, ∀ c ∈ t, safeTokenChar c = true) :
    isColorsMetaLine (colorsLineOf n colors) = true := by
  unfold isColorsMetaLine
  rw [trim_colorsLine, matchMetaLine_colorsLine n h]
  rfl

theorem isBordersMetaLine_bordersLine (n : Nat) {borders : List (List Char)}
    (h : ∀ t ∈ borders, ∀ c ∈ t, safeTokenChar c = true) :
    isBordersMetaLine (bordersLineOf n borders) = true := by
  unfold isBordersMetaLine
  rw [trim_bordersLine, matchMetaLine_bordersLine n h]
  rfl

theorem isColorsMetaLine_bordersLine (n : Nat) (borders : List (List Char)) :
    isColorsMetaLine (bordersLineOf n borders) = false := by
  unfold isColorsMetaLine
  rw [trim_bordersLine]
  rw [show matchMetaLine litColumnsColors (bordersLineOf n borders) = none from rfl]
  rfl

theorem isBordersMetaLine_colorsLine (n : Nat) (colors : List (List Char)) :
    isBordersMetaLine (colorsLineOf n colors) = false := by
  unfold isBordersMetaLine
  rw [trim_colorsLine]
  rw [show matchMetaLine litColumnsBorders (colorsLineOf n colors) = none from rfl]
  rfl

theorem matchMetaLine_safeCol {col : List Char} (lit : List Char)
    (h : ∀ c ∈ col, safeColChar c = true) :
    matchMetaLine lit (trimChars col) = none := by
  unfold matchMetaLine
  rw [matchTwoPercents_no_percent fun c hc =>
    (safeColChar_facts (h c (trimChars_subset col c hc))).2.2.2.1]
  rfl

theorem interleaveSep_mem {cs : List (List Char)} :
    ∀ l ∈ interleaveSep cs, l ∈ cs ∨ l = sepLineChars := by
  cases cs with
  | nil => intro l hl; cases hl
  | cons c rest =>
    intro l hl
    unfold interleaveSep at hl
    rcases List.mem_cons.mp hl with rfl | hl
    · exact Or.inl (List.mem_cons_self _ _)
    · rw [List.mem_flatMap] at hl
      obtain ⟨col, hcol, hin⟩ := hl
      simp only [List.mem_cons, List.mem_singleton, List.not_mem_nil, or_false] at hin
      rcases hin with rfl | rfl
      · exact Or.inr rfl
      · exact Or.inl (List.mem_cons_of_mem _ hcol)

/-! ## C2: when metadata lines are emitted -/

/-- C2 counterexample: a non-empty colors list all of whose tokens are empty
still makes `buildColumnsMarkdown` emit a colors metadata line (the source
tests `colors && colors.length`, not token emptiness), and the parser
recognizes the emitted line as a colors metadata line. -/
theorem buildColumnsMarkdown_allEmpty_counterexample :
    (∀ t ∈ ([[]] : List (List Char)), t = []) ∧
    (splitRN (buildColumnsMarkdown 1 [[]] [[]] [])).any isColorsMetaLine = true := by
  constructor
  · intro t ht
    simpa using ht
  · decide

/-- C2 amended: for marker-free columns and safe style tokens, the serialized
output contains a colors (resp. borders) metadata line exactly when the colors
(resp. borders) argument list is non-empty — even when all its tokens are
empty strings; serializing columnCount 3 with columns `["","",""]` and empty
colors/borders lists omits both metadata lines entirely. -/
theorem buildColumnsMarkdown_metadata_emission :
    (∀ n cols colors borders, 1 ≤ n → n ≤ 6 →
      (∀ c ∈ cols, ∀ ch ∈ c, safeColChar ch = true) →
      (∀ t ∈ colors, ∀ ch ∈ t, safeTokenChar ch = true) →
      (∀ t ∈ borders, ∀ ch ∈ t, safeTokenChar ch = true) →
      ((splitRN (buildColumnsMarkdown n cols colors borders)).any isColorsMetaLine
          = !colors.isEmpty
        ∧ (splitRN (buildColumnsMarkdown n cols colors borders)).any isBordersMetaLine
          = !borders.isEmpty))
    ∧ buildColumnsMarkdown 3 [[], [], []] [] [] =
        "%% columns:start 3 %%\n\n--- col ---\n\n--- col ---\n\n%% columns:end %%".toList := by
  constructor
  · intro n cols colors borders h1 h6 hcols hcolors hborders
    have hcols2safe : ∀ c ∈ (cols ++ List.replicate (n - cols.length) []).take n,
        ∀ ch ∈ c, safeColChar ch = true := by
      intro c hc
      rcases List.mem_append.mp (List.mem_of_mem_take hc) with h | h
      · exact hcols c h
      · intro ch hch
        rw [List.eq_of_mem_replicate h] at hch
        cases hch
    have hlines : splitRN (buildColumnsMarkdown n cols colors borders) =
        [startLineOf n] ++ (if colors.isEmpty then [] else [colorsLineOf n colors]) ++
          (if borders.isEmpty then [] else [bordersLineOf n borders]) ++
          interleaveSep ((cols ++ List.replicate (n - cols.length) []).take n) ++
          [endLineChars] := by
      apply splitRN_joinNL
      · simp
      · intro l hl
        rcases List.mem_append.mp hl with hl | hl
        rotate_left
        · simp only [List.mem_singleton] at hl
          subst hl
          decide
        rcases List.mem_append.mp hl with hl | hl
        rotate_left
        · rcases interleaveSep_mem l hl with hl | rfl
          · intro c hc
            have := safeColChar_facts (hcols2safe l hl c hc)
            exact ⟨this.2.1, this.2.2.1⟩
          · decide
        rcases List.mem_append.mp hl with hl | hl
        rotate_left
        · revert hl
          cases borders with
          | nil => intro hl; cases hl
          | cons b bs =>
            intro hl
            simp only [List.isEmpty_cons, if_neg, Bool.false_eq_true, if_false,
              List.mem_singleton] at hl
            subst hl
            intro c hc
            unfold bordersLineOf at hc
            rcases List.mem_append.mp hc with hc | hc
            rotate_left
            · have : ∀ c ∈ " %%".toList, c ≠ '\n' ∧ c ≠ '\r' := by decide
              exact this c hc
            rcases List.mem_append.mp hc with hc | hc
            · have : ∀ c ∈ "%% columns:borders ".toList, c ≠ '\n' ∧ c ≠ '\r' := by decide
              exact this c hc
            · rcases joinPipe_chars (fun t ht => hborders t (List.mem_of_mem_take ht))
                c hc with ht | rfl
              · have := safeTokenChar_facts ht
                exact ⟨this.2.2.1, this.2.2.2.1⟩
              · exact ⟨by decide, by decide⟩
        rcases List.mem_append.mp hl with hl | hl
        · simp only [List.mem_singleton] at hl
          subst hl
          interval_cases n <;> decide
        · revert hl
          cases colors with
          | nil => intro hl; cases hl
          | cons b bs =>
            intro hl
            simp only [List.isEmpty_cons, if_neg, Bool.false_eq_true, if_false,
              List.mem_singleton] at hl
            subst hl
            intro c hc
            unfold colorsLineOf at hc
            rcases List.mem_append.mp hc with hc | hc
            rotate_left
            · have : ∀ c ∈ " %%".toList, c ≠ '\n' ∧ c ≠ '\r' := by decide
              exact this c hc
            rcases List.mem_append.mp hc with hc | hc
            · have : ∀ c ∈ "%% columns:colors ".toList, c ≠ '\n' ∧ c ≠ '\r' := by decide
              exact this c hc
            · rcases joinPipe_chars (fun t ht => hcolors t (List.mem_of_mem_take ht))
                c hc with ht | rfl
              · have := safeTokenChar_facts ht
                exact ⟨this.2.2.1, this.2.2.2.1⟩
              · exact ⟨by decide, by decide⟩
    rw [hlines]
    have hstart_c : isColorsMetaLine (startLineOf n) = false := by
      interval_cases n <;> decide
    have hstart_b : isBordersMetaLine (startLineOf n) = false := by
      interval_cases n <;> decide
    have hinter : ∀ l ∈ interleaveSep ((cols ++ List.replicate (n - cols.length) []).take n),
        isColorsMetaLine l = false ∧ isBordersMetaLine l = false := by
      intro l hl
      rcases interleaveSep_mem l hl with hl | rfl
      · unfold isColorsMetaLine isBordersMetaLine
        rw [matchMetaLine_safeCol _ (hcols2safe l hl),
          matchMetaLine_safeCol _ (hcols2safe l hl)]
        exact ⟨rfl, rfl⟩
      · exact ⟨by decide, by decide⟩
    have hinter_c : (interleaveSep
        ((cols ++ List.replicate (n - cols.length) []).take n)).any isColorsMetaLine
        = false :=
      List.any_eq_false.mpr fun l hl => by simp [(hinter l hl).1]
    have hinter_b : (interleaveSep
        ((cols ++ List.replicate (n - cols.length) []).take n)).any isBordersMetaLine
        = false :=
      List.any_eq_false.mpr fun l hl => by simp [(hinter l hl).2]
    constructor
    · cases colors <;> cases borders <;>
        simp [hstart_c, hinter_c, isColorsMetaLine_bordersLine,
          isColorsMetaLine_colorsLine n hcolors, List.any_append,
          show isColorsMetaLine endLineChars = false by decide]
    · cases colors <;> cases borders <;>
        simp [hstart_b, hinter_b, isBordersMetaLine_colorsLine,
          isBordersMetaLine_bordersLine n hborders, List.any_append,
          show isBordersMetaLine endLineChars = false by decide]
  · rfl

theorem buildColumnsMarkdown_metadata_emission_witness :
    (splitRN (buildColumnsMarkdown 2 [['a']] ["red".toList] [])).any isColorsMetaLine = true
    ∧ (splitRN (buildColumnsMarkdown 2 [['a']] ["red".toList] [])).any isBordersMetaLine
        = false :=
  buildColumnsMarkdown_metadata_emission.1 2 [['a']] ["red".toList] []
    (by decide) (by decide) (by decide) (by decide) (by decide)

/-! ## No end-marker match inside the serialized block -/

theorem toNat_ofNat_valid {x : Nat} (h : x.isValidChar) : (Char.ofNat x).toNat = x := by
  unfold Char.ofNat
  rw [dif_pos h]
  rfl

theorem toLower_eq_colon {d : Char} (h : d.toLower = ':') : d = ':' := by
  unfold Char.toLower at h
  dsimp only at h
  split at h
  · rename_i hn
    have hval : (d.toNat + 32).isValidChar := Or.inl (by omega)
    have h58 := congrArg Char.toNat h
    rw [toNat_ofNat_valid hval] at h58
    have hcolon : (':' : Char).toNat = 58 := by decide
    omega
  · exact h

theorem matchLitCI_colon_at {lit s r : List Char} (h : matchLitCI lit s = some r) :
    ∀ i, lit.get? i = some ':' → s.get? i = some ':' := by
  induction lit generalizing s with
  | nil => intro i hi; rw [List.get?_nil] at hi; cases hi
  | cons c cs ih =>
    cases s with
    | nil => cases h
    | cons d ds =>
      unfold matchLitCI at h
      split at h
      · rename_i hlow
        intro i hi
        cases i with
        | zero =>
          rw [List.get?_cons_zero] at hi ⊢
          injection hi with hi
          subst hi
          have hd : d.toLower = ':' := by
            rw [← hlow]
            decide
          rw [toLower_eq_colon hd]
        | succ i =>
          rw [List.get?_cons_succ] at hi ⊢
          exact ih h i hi
      · cases h

/-- If the eighth character of the input is not a colon, the case-insensitive
literal `columns:end` cannot match there. -/
theorem matchLitCI_end_none {s : List Char} (h : ¬ s.get? 7 = some ':') :
    matchLitCI litColumnsEnd s = none := by
  cases hm : matchLitCI litColumnsEnd s with
  | none => rfl
  | some r =>
    exact absurd (matchLitCI_colon_at hm 7 (by decide)) h

/-- The scan for an end marker passes over a segment none of whose positions
can start an end-marker match. -/
def SkipsEnd (seg rest : List Char) : Prop :=
  ∀ i, findEndAux (seg ++ rest) i = findEndAux rest (i + seg.length)

theorem skipsEnd_nil (rest : List Char) : SkipsEnd [] rest := by
  intro i
  simp

theorem findEndAux_cons_none {c : Char} {l : List Char} (i : Nat)
    (h : matchEndAt (c :: l) = none) : findEndAux (c :: l) i = findEndAux l (i + 1) := by
  rw [findEndAux.eq_def]
  simp only [h]

theorem skipsEnd_cons {c : Char} {seg rest : List Char}
    (h : matchEndAt (c :: (seg ++ rest)) = none) (h2 : SkipsEnd seg rest) :
    SkipsEnd (c :: seg) rest := by
  intro i
  rw [List.cons_append, findEndAux_cons_none i h, h2 (i + 1)]
  have heq : i + 1 + seg.length = i + (c :: seg).length := by
    simp only [List.length_cons]
    omega
  rw [heq]

theorem skipsEnd_append {a b rest : List Char} (ha : SkipsEnd a (b ++ rest))
    (hb : SkipsEnd b rest) : SkipsEnd (a ++ b) rest := by
  intro i
  rw [List.append_assoc, ha i, hb (i + a.length)]
  have heq : i + a.length + b.length = i + (a ++ b).length := by
    simp only [List.length_append]
    omega
  rw [heq]

theorem matchTwoPercents_head {c : Char} (l : List Char) (h : c ≠ '%') :
    matchTwoPercents (c :: l) = none := by
  rw [matchTwoPercents.eq_def]
  split
  · rename_i heq
    injection heq with h1 h2
    exact absurd h1 h
  · rfl

theorem matchEndAt_head {c : Char} (l : List Char) (h : c ≠ '%') :
    matchEndAt (c :: l) = none := by
  unfold matchEndAt
  rw [matchTwoPercents_head l h]
  rfl

theorem skipsEnd_nopercent {seg : List Char} (rest : List Char)
    (h : ∀ c ∈ seg, c ≠ '%') : SkipsEnd seg rest := by
  induction seg with
  | nil => exact skipsEnd_nil rest
  | cons c tl ih =>
    exact skipsEnd_cons (matchEndAt_head _ (h c (List.mem_cons_self _ _)))
      (ih fun d hd => h d (List.mem_cons_of_mem _ hd))

theorem matchTwoPercents_pair {c d : Char} (l : List Char) (h : c ≠ '%' ∨ d ≠ '%') :
    matchTwoPercents (c :: d :: l) = none := by
  rw [matchTwoPercents.eq_def]
  split
  · rename_i heq
    injection heq with h1 h2
    injection h2 with h2 h3
    rcases h with h | h
    · exact absurd h1 h
    · exact absurd h2 h
  · rfl

theorem matchEndAt_two {rest : List Char}
    (hP : matchLitCI litColumnsEnd (rest.dropWhile jsSpace) = none) :
    matchEndAt ('%' :: '%' :: '\n' :: rest) = none := by
  unfold matchEndAt
  rw [show matchTwoPercents ('%' :: '%' :: '\n' :: rest) = some ('\n' :: rest) from rfl,
    Option.some_bind, List.dropWhile_cons_of_pos (by decide : jsSpace '\n' = true), hP]
  rfl

/-- Skipping a serialized colors metadata line (with its trailing newline):
no end-marker match can begin at any of its positions. -/
theorem skipsEnd_colorsLine {J rest : List Char} (hJ : ∀ c ∈ J, c ≠ '%')
    (hP : matchLitCI litColumnsEnd (rest.dropWhile jsSpace) = none) :
    SkipsEnd ('%' :: '%' :: ' ' :: (litColumnsColors ++ (' ' :: (J ++ [' ', '%', '%', '\n']))))
      rest := by
  refine skipsEnd_cons rfl (skipsEnd_cons rfl (skipsEnd_cons rfl
    (skipsEnd_append (skipsEnd_nopercent _ (by decide)) (skipsEnd_cons rfl
      (skipsEnd_append (skipsEnd_nopercent _ hJ) (skipsEnd_cons rfl
        (skipsEnd_cons (matchEndAt_two hP) (skipsEnd_cons rfl
          (skipsEnd_cons rfl (skipsEnd_nil rest))))))))))

/-- Skipping a serialized borders metadata line (with its trailing newline). -/
theorem skipsEnd_bordersLine {J rest : List Char} (hJ : ∀ c ∈ J, c ≠ '%')
    (hP : matchLitCI litColumnsEnd (rest.dropWhile jsSpace) = none) :
    SkipsEnd ('%' :: '%' :: ' ' :: (litColumnsBorders ++ (' ' :: (J ++ [' ', '%', '%', '\n']))))
      rest := by
  refine skipsEnd_cons rfl (skipsEnd_cons rfl (skipsEnd_cons rfl
    (skipsEnd_append (skipsEnd_nopercent _ (by decide)) (skipsEnd_cons rfl
      (skipsEnd_append (skipsEnd_nopercent _ hJ) (skipsEnd_cons rfl
        (skipsEnd_cons (matchEndAt_two hP) (skipsEnd_cons rfl
          (skipsEnd_cons rfl (skipsEnd_nil rest))))))))))

theorem trimChars_length_le (l : List Char) :
    (trimChars l).length ≤ (l.dropWhile jsSpace).length := by
  unfold trimChars
  rw [List.length_reverse]
  refine le_trans (List.dropWhile_sublist _).length_le ?_
  rw [List.length_reverse]

theorem trim_fix_head {l : List Char} {c : Char} (hfix : trimChars l = l)
    (hc : l.head? = some c) : jsSpace c = false := by
  cases l with
  | nil => cases hc
  | cons d tl =>
    injection hc with hc
    cases hc
    by_contra hws
    rw [Bool.not_eq_false] at hws
    have h1 := trimChars_length_le (c :: tl)
    rw [hfix, List.dropWhile_cons_of_pos hws] at h1
    have h2 := (List.dropWhile_sublist (l := tl) jsSpace).length_le
    simp only [List.length_cons] at h1
    omega

theorem trim_fix_last {l : List Char} {c : Char} (hfix : trimChars l = l)
    (hc : l.getLast? = some c) : jsSpace c = false := by
  by_contra hws
  rw [Bool.not_eq_false] at hws
  cases hAe : l.dropWhile jsSpace with
  | nil =>
    have hnil : trimChars l = [] := by
      unfold trimChars
      rw [hAe]
      rfl
    rw [hfix] at hnil
    subst hnil
    cases hc
  | cons a as =>
    have hlast : (l.dropWhile jsSpace).getLast? = some c := by
      have hsplit := List.takeWhile_append_dropWhile (p := jsSpace) (l := l)
      rw [← hsplit, List.getLast?_append] at hc
      cases hAl : (l.dropWhile jsSpace).getLast? with
      | none =>
        rw [hAe] at hAl
        rw [List.getLast?_eq_none_iff] at hAl
        exact absurd hAl (List.cons_ne_nil _ _)
      | some d =>
        rw [hAl] at hc
        rw [show (some d).or ((List.takeWhile jsSpace l).getLast?) = some d from rfl] at hc
        injection hc with hc
        rw [hc]
    have hrevhead : (l.dropWhile jsSpace).reverse.head? = some c := by
      rw [List.head?_reverse]
      exact hlast
    obtain ⟨r, hr⟩ : ∃ r, (l.dropWhile jsSpace).reverse = c :: r := by
      cases hrv : (l.dropWhile jsSpace).reverse with
      | nil => rw [hrv] at hrevhead; cases hrevhead
      | cons x xs =>
        rw [hrv] at hrevhead
        injection hrevhead with h
        subst h
        exact ⟨xs, rfl⟩
    have hlen : (trimChars l).length ≤ r.length := by
      unfold trimChars
      rw [hr, List.length_reverse, List.dropWhile_cons_of_pos hws]
      exact (List.dropWhile_sublist _).length_le
    have hAr : (l.dropWhile jsSpace).length = r.length + 1 := by
      have hlr := congrArg List.length hr
      rw [List.length_reverse] at hlr
      simpa using hlr
    have hAle : (l.dropWhile jsSpace).length ≤ l.length :=
      (List.dropWhile_sublist _).length_le
    rw [hfix] at hlen
    omega

/-- The literal `columns:end` cannot match at the start of a safe column
followed by a newline: its colon cannot be produced. -/
theorem matchLitCI_end_none_piece {c1 z : List Char} (hne : c1 ≠ [])
    (hc1 : ∀ c ∈ c1, safeColChar c = true) (htrim : trimChars c1 = c1)
    (hz : ∀ k, k ≤ 7 → ¬ z.get? k = some ':') :
    matchLitCI litColumnsEnd ((c1 ++ '\n' :: z).dropWhile jsSpace) = none := by
  cases c1 with
  | nil => exact absurd rfl hne
  | cons hd tl =>
    have hhd : jsSpace hd = false := trim_fix_head htrim rfl
    rw [List.cons_append, List.dropWhile_cons_of_neg (by simp [hhd]), ← List.cons_append]
    apply matchLitCI_end_none
    rcases Nat.lt_or_ge 7 (hd :: tl).length with h7 | h7
    · rw [List.get?_append h7]
      intro hcontra
      have hmem : ':' ∈ hd :: tl := List.get?_mem hcontra
      have := (safeColChar_facts (hc1 _ hmem)).2.2.2.2.2.1
      exact this rfl
    · rw [List.get?_append_right h7]
      cases hdiff : 7 - (hd :: tl).length with
      | zero => simp
      | succ k =>
        rw [List.get?_cons_succ]
        refine hz k ?_
        simp only [List.length_cons] at h7 hdiff
        omega

theorem joinNL_append_single {L : List (List Char)} (hne : L ≠ []) (x : List Char) :
    joinNL (L ++ [x]) = joinNL L ++ '\n' :: x := by
  induction L with
  | nil => exact absurd rfl hne
  | cons a t ih =>
    cases t with
    | nil =>
      rw [show (([a] : List (List Char)) ++ [x]) = [a, x] from rfl, joinNL_cons₂,
        joinNL_single, joinNL_single]
    | cons b t2 =>
      rw [show ((a :: b :: t2) ++ [x]) = a :: (b :: t2 ++ [x]) from rfl]
      rw [show (b :: t2 ++ [x]) = b :: (t2 ++ [x]) from rfl]
      rw [joinNL_cons₂]
      rw [show (b :: (t2 ++ [x])) = b :: t2 ++ [x] from rfl]
      rw [ih (List.cons_ne_nil _ _), joinNL_cons₂]
      simp

theorem joinNL_chars {lines : List (List Char)} :
    ∀ c ∈ joinNL lines, (∃ l ∈ lines, c ∈ l) ∨ c = '\n' := by
  induction lines with
  | nil => intro c hc; cases hc
  | cons a t ih =>
    cases t with
    | nil =>
      rw [joinNL_single]
      intro c hc
      exact Or.inl ⟨a, List.mem_cons_self _ _, hc⟩
    | cons b t2 =>
      rw [joinNL_cons₂]
      intro c hc
      rcases List.mem_append.mp hc with hc | hc
      · exact Or.inl ⟨a, List.mem_cons_self _ _, hc⟩
      · rcases List.mem_cons.mp hc with rfl | hc
        · exact Or.inr rfl
        · rcases ih c hc with ⟨l, hl, hcl⟩ | rfl
          · exact Or.inl ⟨l, List.mem_cons_of_mem _ hl, hcl⟩
          · exact Or.inr rfl

/-- After a safe nonempty column, the remainder of the body cannot begin an
end-marker literal match. -/
theorem body_no_end {cols2 : List (List Char)}
    (hsafe : ∀ col ∈ cols2, ∀ c ∈ col, safeColChar c = true)
    (htrim : ∀ col ∈ cols2, trimChars col = col)
    (hcne : ∀ col ∈ cols2, col ≠ []) (hne : cols2 ≠ []) :
    matchLitCI litColumnsEnd
      ((joinNL (interleaveSep cols2) ++ '\n' :: endLineChars).dropWhile jsSpace) = none := by
  cases cols2 with
  | nil => exact absurd rfl hne
  | cons c1 rest =>
    cases rest with
    | nil =>
      rw [show interleaveSep [c1] = [c1] from rfl, joinNL_single]
      refine matchLitCI_end_none_piece (hcne c1 (List.mem_cons_self _ _))
        (hsafe c1 (List.mem_cons_self _ _)) (htrim c1 (List.mem_cons_self _ _)) ?_
      intro k hk
      interval_cases k <;> decide
    | cons c2 rest2 =>
      have hint : interleaveSep (c1 :: c2 :: rest2) = c1 :: sepLineChars :: c2 ::
          (rest2.flatMap fun col => [sepLineChars, col]) := rfl
      rw [hint, joinNL_cons₂, List.append_assoc, List.cons_append]
      refine matchLitCI_end_none_piece (hcne c1 (List.mem_cons_self _ _))
        (hsafe c1 (List.mem_cons_self _ _)) (htrim c1 (List.mem_cons_self _ _)) ?_
      intro k hk
      rw [joinNL_cons₂, List.append_assoc, List.cons_append]
      rw [List.get?_append (show k < sepLineChars.length by
        rw [show sepLineChars.length = 11 from rfl]
        omega)]
      interval_cases k <;> decide

/-- The body text (columns interleaved with separator lines) contains no
percent character at all. -/
theorem body_nopercent {cols2 : List (List Char)}
    (hsafe : ∀ col ∈ cols2, ∀ c ∈ col, safeColChar c = true) :
    ∀ c ∈ joinNL (interleaveSep cols2) ++ ['\n'], c ≠ '%' := by
  intro c hc
  rcases List.mem_append.mp hc with hc | hc
  · rcases joinNL_chars c hc with ⟨l, hl, hcl⟩ | rfl
    · rcases interleaveSep_mem l hl with hl | rfl
      · exact (safeColChar_facts (hsafe l hl c hcl)).2.2.2.1
      · exact (by decide : ∀ x ∈ sepLineChars, x ≠ '%') c hcl
    · decide
  · simp only [List.mem_singleton] at hc
    subst hc
    decide

theorem findEndAux_endLine (i : Nat) : findEndAux endLineChars i = some (i, 17) := rfl

theorem joinNL_cons_ne (a : List Char) {X : List (List Char)} (h : X ≠ []) :
    joinNL (a :: X) = a ++ '\n' :: joinNL X := by
  cases X with
  | nil => exact absurd rfl h
  | cons b t => exact joinNL_cons₂ a b t

theorem interleaveSep_ne {cols2 : List (List Char)} (h : cols2 ≠ []) :
    interleaveSep cols2 ≠ [] := by
  cases cols2 with
  | nil => exact absurd rfl h
  | cons c r =>
    intro h'
    simp [interleaveSep] at h'

theorem dropWhile_space_append {pre : List Char} (x : List Char)
    (h : ∀ c ∈ pre, jsSpace c = true) :
    (pre ++ x).dropWhile jsSpace = x.dropWhile jsSpace := by
  induction pre with
  | nil => rfl
  | cons c tl ih =>
    rw [List.cons_append, List.dropWhile_cons_of_pos (h c (List.mem_cons_self _ _))]
    exact ih fun d hd => h d (List.mem_cons_of_mem _ hd)

/-- Trimming strips any all-whitespace padding around an already-trimmed
nonempty string. -/
theorem trimChars_pad {pre suf c : List Char} (hpre : ∀ d ∈ pre, jsSpace d = true)
    (hsuf : ∀ d ∈ suf, jsSpace d = true) (hc : trimChars c = c) (hne : c ≠ []) :
    trimChars (pre ++ (c ++ suf)) = c := by
  unfold trimChars
  rw [dropWhile_space_append _ hpre]
  have hh : (c ++ suf).dropWhile jsSpace = c ++ suf := by
    cases c with
    | nil => exact absurd rfl hne
    | cons d tl =>
      rw [List.cons_append, List.dropWhile_cons_of_neg]
      rw [trim_fix_head hc (show (d :: tl).head? = some d from rfl)]
      simp
  rw [hh, List.reverse_append,
    dropWhile_space_append _ (fun d hd => hsuf d (List.mem_reverse.mp hd))]
  have h2 : c.reverse.dropWhile jsSpace = c.reverse := by
    cases hcr : c.reverse with
    | nil => rfl
    | cons d tl =>
      rw [List.dropWhile_cons_of_neg]
      have hlast : c.getLast? = some d := by
        rw [← List.head?_reverse, hcr]
        rfl
      rw [trim_fix_last hc hlast]
      simp
  rw [h2, List.reverse_reverse]

theorem findStartAux_head {s rem : List Char} {k : Nat} (i : Nat) (hne : s ≠ [])
    (hm : matchStartAt s = some (rem, k)) :
    findStartAux s i = some (i, s.length - rem.length, k) := by
  cases s with
  | nil => exact absurd rfl hne
  | cons c tl =>
    rw [findStartAux.eq_def]
    simp only [hm]

theorem matchStartAt_startLine {n : Nat} (h1 : 1 ≤ n) (h6 : n ≤ 6) (rest : List Char) :
    matchStartAt (startLineOf n ++ rest) = some (rest, n) := by
  interval_cases n <;> rfl

theorem colorsLine_nl (n : Nat) (colors : List (List Char)) :
    colorsLineOf n colors ++ ['\n'] =
      '%' :: '%' :: ' ' :: (litColumnsColors ++
        (' ' :: (joinPipe (colors.take n) ++ [' ', '%', '%', '\n']))) := by
  rw [show colorsLineOf n colors = '%' :: '%' :: ' ' :: (litColumnsColors ++
    (' ' :: (joinPipe (colors.take n) ++ [' ', '%', '%']))) from rfl]
  simp

theorem bordersLine_nl (n : Nat) (borders : List (List Char)) :
    bordersLineOf n borders ++ ['\n'] =
      '%' :: '%' :: ' ' :: (litColumnsBorders ++
        (' ' :: (joinPipe (borders.take n) ++ [' ', '%', '%', '\n']))) := by
  rw [show bordersLineOf n borders = '%' :: '%' :: ' ' :: (litColumnsBorders ++
    (' ' :: (joinPipe (borders.take n) ++ [' ', '%', '%']))) from rfl]
  simp

theorem joinPipe_no_percent {toks : List (List Char)}
    (h : ∀ t ∈ toks, ∀ c ∈ t, safeTokenChar c = true) :
    ∀ c ∈ joinPipe toks, c ≠ '%' := by
  intro c hc
  have hp := (joinPipe_payload h c hc).1
  simp only [payloadChar, Bool.and_eq_true, Bool.not_eq_true', decide_eq_false_iff_not] at hp
  exact hp.2

theorem skipsEnd_colorsSeg {n : Nat} {colors : List (List Char)} {rest : List Char}
    (htok : ∀ t ∈ colors, ∀ c ∈ t, safeTokenChar c = true)
    (hP : matchLitCI litColumnsEnd (rest.dropWhile jsSpace) = none) :
    SkipsEnd (colorsLineOf n colors ++ ['\n']) rest := by
  rw [colorsLine_nl]
  exact skipsEnd_colorsLine
    (joinPipe_no_percent fun t ht => htok t (List.mem_of_mem_take ht)) hP

theorem skipsEnd_bordersSeg {n : Nat} {borders : List (List Char)} {rest : List Char}
    (htok : ∀ t ∈ borders, ∀ c ∈ t, safeTokenChar c = true)
    (hP : matchLitCI litColumnsEnd (rest.dropWhile jsSpace) = none) :
    SkipsEnd (bordersLineOf n borders ++ ['\n']) rest := by
  rw [bordersLine_nl]
  exact skipsEnd_bordersLine
    (joinPipe_no_percent fun t ht => htok t (List.mem_of_mem_take ht)) hP

theorem matchLitCI_end_after_borders (n : Nat) (borders : List (List Char))
    (X : List Char) :
    matchLitCI litColumnsEnd
      (((bordersLineOf n borders ++ ['\n']) ++ X).dropWhile jsSpace) = none := by
  rw [bordersLine_nl, List.cons_append, List.dropWhile_cons_of_neg (by decide)]
  rfl

theorem matchLitCI_end_percent {s : List Char} (hs : s.head? = some '%') :
    matchLitCI litColumnsEnd (s.dropWhile jsSpace) = none := by
  cases s with
  | nil => cases hs
  | cons c tl =>
    injection hs with hs
    subst hs
    rw [List.dropWhile_cons_of_neg (by decide)]
    rfl

/-- The end-marker scan skips the entire serialized block interior (metadata
lines, columns and separator lines). -/
theorem skipsEnd_block {n : Nat} {colors borders cols2 : List (List Char)}
    (hctok : ∀ t ∈ colors, ∀ c ∈ t, safeTokenChar c = true)
    (hbtok : ∀ t ∈ borders, ∀ c ∈ t, safeTokenChar c = true)
    (hsafe : ∀ col ∈ cols2, ∀ c ∈ col, safeColChar c = true)
    (htrim : ∀ col ∈ cols2, trimChars col = col)
    (hcne : ∀ col ∈ cols2, col ≠ []) (hne : cols2 ≠ []) :
    SkipsEnd ('\n' :: (joinNL
        ((if colors.isEmpty then [] else [colorsLineOf n colors]) ++
         (if borders.isEmpty then [] else [bordersLineOf n borders]) ++
         interleaveSep cols2) ++ ['\n']))
      endLineChars := by
  have hinter : interleaveSep cols2 ≠ [] := interleaveSep_ne hne
  have hbody : matchLitCI litColumnsEnd
      (((joinNL (interleaveSep cols2) ++ ['\n']) ++ endLineChars).dropWhile jsSpace) =
        none := by
    have h := body_no_end hsafe htrim hcne hne
    rw [List.append_assoc, List.singleton_append]
    exact h
  have hbodySk : SkipsEnd (joinNL (interleaveSep cols2) ++ ['\n']) endLineChars :=
    skipsEnd_nopercent _ (body_nopercent hsafe)
  refine skipsEnd_cons (matchEndAt_head _ (by decide)) ?_
  cases hc : colors.isEmpty <;> cases hb : borders.isEmpty
  · -- colors present, borders present
    simp only [Bool.false_eq_true, if_false]
    have hseg : joinNL ([colorsLineOf n colors] ++ [bordersLineOf n borders] ++
          interleaveSep cols2) ++ ['\n'] =
        (colorsLineOf n colors ++ ['\n']) ++
          ((bordersLineOf n borders ++ ['\n']) ++
            (joinNL (interleaveSep cols2) ++ ['\n'])) := by
      rw [show ([colorsLineOf n colors] ++ [bordersLineOf n borders] ++
          interleaveSep cols2) =
        colorsLineOf n colors :: bordersLineOf n borders :: interleaveSep cols2 from rfl]
      rw [joinNL_cons₂, joinNL_cons_ne _ hinter]
      simp
    rw [hseg]
    refine skipsEnd_append (skipsEnd_colorsSeg hctok ?_)
      (skipsEnd_append (skipsEnd_bordersSeg hbtok ?_) hbodySk)
    · exact matchLitCI_end_percent rfl
    · exact hbody
  · -- colors present, borders absent
    simp only [Bool.false_eq_true, if_false, if_true]
    have hseg : joinNL ([colorsLineOf n colors] ++ [] ++ interleaveSep cols2) ++ ['\n'] =
        (colorsLineOf n colors ++ ['\n']) ++
          (joinNL (interleaveSep cols2) ++ ['\n']) := by
      rw [show ([colorsLineOf n colors] ++ [] ++ interleaveSep cols2) =
        colorsLineOf n colors :: interleaveSep cols2 from by simp]
      rw [joinNL_cons_ne _ hinter]
      simp
    rw [hseg]
    exact skipsEnd_append (skipsEnd_colorsSeg hctok hbody) hbodySk
  · -- colors absent, borders present
    simp only [Bool.false_eq_true, if_false, if_true]
    have hseg : joinNL ([] ++ [bordersLineOf n borders] ++ interleaveSep cols2) ++ ['\n'] =
        (bordersLineOf n borders ++ ['\n']) ++
          (joinNL (interleaveSep cols2) ++ ['\n']) := by
      rw [show ([] ++ [bordersLineOf n borders] ++ interleaveSep cols2 :
          List (List Char)) =
        bordersLineOf n borders :: interleaveSep cols2 from by simp]
      rw [joinNL_cons_ne _ hinter]
      simp
    rw [hseg]
    exact skipsEnd_append (skipsEnd_bordersSeg hbtok hbody) hbodySk
  · -- both absent
    simp only [if_true]
    rw [show ([] ++ [] ++ interleaveSep cols2 : List (List Char)) =
      interleaveSep cols2 from by simp]
    exact hbodySk

/-- The end-marker scan over the tail of a serialized block finds exactly the
serialized end line, with match length 17. -/
theorem findEndAux_block {n : Nat} {colors borders cols2 : List (List Char)} (a : Nat)
    (hctok : ∀ t ∈ colors, ∀ c ∈ t, safeTokenChar c = true)
    (hbtok : ∀ t ∈ borders, ∀ c ∈ t, safeTokenChar c = true)
    (hsafe : ∀ col ∈ cols2, ∀ c ∈ col, safeColChar c = true)
    (htrim : ∀ col ∈ cols2, trimChars col = col)
    (hcne : ∀ col ∈ cols2, col ≠ []) (hne : cols2 ≠ []) :
    findEndAux ('\n' :: (joinNL
        ((if colors.isEmpty then [] else [colorsLineOf n colors]) ++
         (if borders.isEmpty then [] else [bordersLineOf n borders]) ++
         interleaveSep cols2) ++ '\n' :: endLineChars)) a =
      some (a + ((joinNL
        ((if colors.isEmpty then [] else [colorsLineOf n colors]) ++
         (if borders.isEmpty then [] else [bordersLineOf n borders]) ++
         interleaveSep cols2)).length + 2), 17) := by
  have hsk := skipsEnd_block (n := n) hctok hbtok hsafe htrim hcne hne
  have hshape : '\n' :: (joinNL
        ((if colors.isEmpty then [] else [colorsLineOf n colors]) ++
         (if borders.isEmpty then [] else [bordersLineOf n borders]) ++
         interleaveSep cols2) ++ '\n' :: endLineChars) =
      ('\n' :: (joinNL
        ((if colors.isEmpty then [] else [colorsLineOf n colors]) ++
         (if borders.isEmpty then [] else [bordersLineOf n borders]) ++
         interleaveSep cols2) ++ ['\n'])) ++ endLineChars := by
    simp
  rw [hshape, hsk a, findEndAux_endLine]
  have hlen : ∀ J : List Char, ('\n' :: (J ++ ['\n'])).length = J.length + 2 := by
    intro J
    simp
  rw [hlen]

theorem splitSepGo_nil (fuel : Nat) (acc : List Char) (atLS : Bool) :
    splitSepGo fuel acc [] atLS = [acc.reverse] := by
  cases fuel <;> rfl

theorem splitSepGo_cons_false (fuel : Nat) (acc : List Char) (c : Char) (tl : List Char) :
    splitSepGo (fuel + 1) acc (c :: tl) false =
      splitSepGo fuel (c :: acc) tl (isLineTerm c) := rfl

theorem splitSepGo_cons_true (fuel : Nat) (acc : List Char) (c : Char) (tl : List Char) :
    splitSepGo (fuel + 1) acc (c :: tl) true =
      match sepMatchLen (c :: tl) with
      | some k => acc.reverse :: splitSepGo fuel [] ((c :: tl).drop k)
          (isLineTerm (((c :: tl).take k).getLastD ' '))
      | none => splitSepGo fuel (c :: acc) tl (isLineTerm c) := rfl

theorem sepMatchLen_nodash {d : Char} (tl : List Char) (hd : jsSpace d = false)
    (hd2 : d ≠ '-') : sepMatchLen (d :: tl) = none := by
  unfold sepMatchLen
  rw [List.dropWhile_cons_of_neg (by simp [hd])]
  rw [show matchLit threeDashes (d :: tl) =
    if '-' = d then matchLit ['-', '-'] tl else none from rfl]
  rw [if_neg fun h => hd2 h.symm]
  rfl

theorem splitSepGo_step_true {c : Char} {tl : List Char} (fuel : Nat) (acc : List Char)
    (hsep : sepMatchLen (c :: tl) = none) :
    splitSepGo (fuel + 1) acc (c :: tl) true =
      splitSepGo fuel (c :: acc) tl (isLineTerm c) := by
  rw [splitSepGo_cons_true, hsep]

theorem splitSepGo_walk {w : List Char} (hw : ∀ c ∈ w, isLineTerm c = false) :
    ∀ (fuel : Nat) (z acc : List Char), w.length + z.length ≤ fuel →
    splitSepGo fuel acc (w ++ z) false =
      splitSepGo (fuel - w.length) (w.reverse ++ acc) z false := by
  induction w with
  | nil =>
    intro fuel z acc h
    simp
  | cons c wt ih =>
    intro fuel z acc h
    cases fuel with
    | zero =>
      simp only [List.length_cons] at h
      omega
    | succ f =>
      rw [List.cons_append, splitSepGo_cons_false, hw c (List.mem_cons_self _ _)]
      rw [ih (fun d hd => hw d (List.mem_cons_of_mem _ hd)) f z (c :: acc)
        (by simp only [List.length_cons] at h; omega)]
      have h1 : f - wt.length = (f + 1) - (c :: wt).length := by
        simp only [List.length_cons]
        omega
      rw [← h1]
      simp [List.reverse_cons, List.append_assoc]

theorem sepMatchLen_sepLine {d : Char} (zt : List Char) (hd : jsSpace d = false) :
    sepMatchLen (sepLineChars ++ '\n' :: (d :: zt)) = some 11 := by
  have hred : sepMatchLen (sepLineChars ++ '\n' :: (d :: zt)) =
      (sepTrail ('\n' :: (d :: zt))).bind
        (fun k => some ((sepLineChars ++ '\n' :: (d :: zt)).length -
          ('\n' :: (d :: zt)).length + k)) := rfl
  have hst : sepTrail ('\n' :: (d :: zt)) = some 0 := by
    unfold sepTrail
    rw [show ('\n' :: (d :: zt)).takeWhile jsSpace =
      '\n' :: (d :: zt).takeWhile jsSpace from
      List.takeWhile_cons_of_pos (by decide)]
    rw [List.takeWhile_cons_of_neg (by simp [hd])]
    rw [if_neg (by simp)]
    rfl
  rw [hred, hst, Option.some_bind]
  congr 1
  simp only [List.length_append, List.length_cons]
  rw [show sepLineChars.length = 11 from rfl]
  omega

theorem splitSepGo_sep {d : Char} {zt : List Char} (fuel : Nat) (acc : List Char)
    (hd : jsSpace d = false) :
    splitSepGo (fuel + 1) acc (sepLineChars ++ '\n' :: (d :: zt)) true =
      acc.reverse :: splitSepGo fuel [] ('\n' :: (d :: zt)) false := by
  rw [show sepLineChars ++ '\n' :: (d :: zt) =
    '-' :: ('-' :: '-' :: ' ' :: 'c' :: 'o' :: 'l' :: ' ' :: '-' :: '-' :: '-' ::
      ('\n' :: (d :: zt))) from rfl]
  rw [splitSepGo_cons_true]
  rw [show ('-' :: ('-' :: '-' :: ' ' :: 'c' :: 'o' :: 'l' :: ' ' :: '-' :: '-' :: '-' ::
      ('\n' :: (d :: zt)))) = sepLineChars ++ '\n' :: (d :: zt) from rfl]
  rw [sepMatchLen_sepLine zt hd]
  dsimp only
  rw [show (sepLineChars ++ '\n' :: (d :: zt)).drop 11 = '\n' :: (d :: zt) from rfl]
  rw [show isLineTerm (((sepLineChars ++ '\n' :: (d :: zt)).take 11).getLastD ' ') =
    false from rfl]

theorem splitSepGo_col {col : List Char} {fuel : Nat} (z acc : List Char)
    (hcol : col ≠ []) (hsafe : ∀ c ∈ col, safeColChar c = true)
    (htrim : trimChars col = col)
    (hf : col.length + z.length ≤ fuel + 1) :
    splitSepGo (fuel + 1) acc (col ++ z) true =
      splitSepGo (fuel + 1 - col.length) (col.reverse ++ acc) z false := by
  cases col with
  | nil => exact absurd rfl hcol
  | cons d tl =>
    have hd : jsSpace d = false :=
      trim_fix_head htrim (show (d :: tl).head? = some d from rfl)
    have hd2 : d ≠ '-' :=
      (safeColChar_facts (hsafe d (List.mem_cons_self _ _))).2.2.2.2.1
    have hdl : isLineTerm d = false :=
      (safeColChar_facts (hsafe d (List.mem_cons_self _ _))).2.2.2.2.2.2
    rw [List.cons_append,
      splitSepGo_step_true fuel acc (sepMatchLen_nodash _ hd hd2), hdl]
    rw [splitSepGo_walk
      (fun c hc => (safeColChar_facts (hsafe c (List.mem_cons_of_mem _ hc))).2.2.2.2.2.2)
      fuel z (d :: acc) (by simp only [List.length_cons] at hf; omega)]
    have h1 : fuel - tl.length = fuel + 1 - (d :: tl).length := by
      simp only [List.length_cons]
      omega
    rw [← h1]
    simp [List.reverse_cons, List.append_assoc]

theorem body_head (c2 : List Char) (rest2 : List (List Char)) :
    ∃ Y, joinNL (interleaveSep (c2 :: rest2)) ++ ['\n'] = c2 ++ Y := by
  cases rest2 with
  | nil =>
    exact ⟨['\n'], by rw [show interleaveSep [c2] = [c2] from rfl, joinNL_single]⟩
  | cons c3 r3 =>
    refine ⟨'\n' :: (joinNL (sepLineChars :: interleaveSep (c3 :: r3)) ++ ['\n']), ?_⟩
    rw [show interleaveSep (c2 :: c3 :: r3) =
      c2 :: sepLineChars :: interleaveSep (c3 :: r3) from rfl]
    rw [joinNL_cons_ne _ (List.cons_ne_nil _ _)]
    simp

/-- Splitting the serialized body on the separator regex returns the first
column (with its trailing newline) and each further column wrapped in the
newlines around the consumed separator line. -/
theorem splitSepGo_serialized :
    ∀ (cols : List (List Char)) (fuel : Nat) (acc : List Char),
    (∀ col ∈ cols, col ≠ []) →
    (∀ col ∈ cols, ∀ c ∈ col, safeColChar c = true) →
    (∀ col ∈ cols, trimChars col = col) →
    cols ≠ [] →
    (joinNL (interleaveSep cols) ++ ['\n']).length ≤ fuel →
    splitSepGo fuel acc (joinNL (interleaveSep cols) ++ ['\n']) true =
      (acc.reverse ++ (cols.headD [] ++ ['\n'])) ::
        cols.tail.map (fun ci => '\n' :: (ci ++ ['\n'])) := by
  intro cols
  induction cols with
  | nil =>
    intro fuel acc _ _ _ hne _
    exact absurd rfl hne
  | cons c1 rest ih =>
    intro fuel acc hcne hsafe htrim _ hfuel
    have hc1ne : c1 ≠ [] := hcne c1 (List.mem_cons_self _ _)
    have hc1safe : ∀ c ∈ c1, safeColChar c = true := hsafe c1 (List.mem_cons_self _ _)
    have hc1trim : trimChars c1 = c1 := htrim c1 (List.mem_cons_self _ _)
    cases rest with
    | nil =>
      have hbody : joinNL (interleaveSep [c1]) ++ ['\n'] = c1 ++ ['\n'] := by
        rw [show interleaveSep [c1] = [c1] from rfl, joinNL_single]
      rw [hbody] at hfuel ⊢
      simp only [List.length_append, List.length_cons, List.length_nil] at hfuel
      obtain ⟨f, rfl⟩ : ∃ f, fuel = f + 1 := ⟨fuel - 1, by omega⟩
      rw [splitSepGo_col ['\n'] acc hc1ne hc1safe hc1trim
        (by simp only [List.length_cons, List.length_nil]; omega)]
      obtain ⟨g, hg⟩ : ∃ g, f + 1 - c1.length = g + 1 := ⟨f - c1.length, by omega⟩
      rw [hg, show (['\n'] : List Char) = '\n' :: ([] : List Char) from rfl,
        splitSepGo_cons_false, show isLineTerm '\n' = true from rfl, splitSepGo_nil]
      simp
    | cons c2 rest2 =>
      have hc2mem : c2 ∈ c1 :: c2 :: rest2 :=
        List.mem_cons_of_mem _ (List.mem_cons_self _ _)
      have hc2ne : c2 ≠ [] := hcne c2 hc2mem
      obtain ⟨Y, hY⟩ := body_head c2 rest2
      obtain ⟨d, dt, hc2⟩ : ∃ d dt, c2 = d :: dt := by
        cases c2 with
        | nil => exact absurd rfl hc2ne
        | cons d dt => exact ⟨d, dt, rfl⟩
      have hd : jsSpace d = false := by
        have ht2 := htrim c2 hc2mem
        rw [hc2] at ht2
        exact trim_fix_head ht2 (show (d :: dt).head? = some d from rfl)
      have hB : joinNL (interleaveSep (c2 :: rest2)) ++ ['\n'] = d :: (dt ++ Y) := by
        rw [hY, hc2, List.cons_append]
      have hbody : joinNL (interleaveSep (c1 :: c2 :: rest2)) ++ ['\n'] =
          c1 ++ '\n' :: (sepLineChars ++
            '\n' :: (joinNL (interleaveSep (c2 :: rest2)) ++ ['\n'])) := by
        rw [show interleaveSep (c1 :: c2 :: rest2) =
          c1 :: sepLineChars :: interleaveSep (c2 :: rest2) from rfl]
        rw [joinNL_cons₂, joinNL_cons_ne _ (interleaveSep_ne (List.cons_ne_nil _ _))]
        simp
      rw [hbody] at hfuel ⊢
      have hsl : sepLineChars.length = 11 := rfl
      simp only [List.length_append, List.length_cons] at hfuel
      obtain ⟨f, rfl⟩ : ∃ f, fuel = f + 1 := ⟨fuel - 1, by omega⟩
      rw [splitSepGo_col _ acc hc1ne hc1safe hc1trim
        (by simp only [List.length_append, List.length_cons]; omega)]
      obtain ⟨g, hg⟩ : ∃ g, f + 1 - c1.length = g + 1 := ⟨f - c1.length, by omega⟩
      rw [hg, splitSepGo_cons_false, show isLineTerm '\n' = true from rfl]
      have hgbound : sepLineChars.length + 1 +
          (joinNL (interleaveSep (c2 :: rest2)) ++ ['\n']).length ≤ g + 1 := by
        simp only [List.length_append, List.length_cons]
        omega
      obtain ⟨h2, hh2⟩ : ∃ h2, g = h2 + 1 := ⟨g - 1, by omega⟩
      rw [hh2]
      rw [show sepLineChars ++ '\n' :: (joinNL (interleaveSep (c2 :: rest2)) ++ ['\n']) =
        sepLineChars ++ '\n' :: (d :: (dt ++ Y)) from by rw [← hB]]
      rw [splitSepGo_sep h2 _ hd]
      obtain ⟨m, hm⟩ : ∃ m, h2 = m + 1 := by
        refine ⟨h2 - 1, ?_⟩
        have hBlen : 1 ≤ (joinNL (interleaveSep (c2 :: rest2)) ++ ['\n']).length := by
          simp
        omega
      rw [hm, splitSepGo_cons_false, show isLineTerm '\n' = true from rfl]
      rw [show (d :: (dt ++ Y)) = joinNL (interleaveSep (c2 :: rest2)) ++ ['\n'] from
        hB.symm]
      rw [ih m ['\n'] (fun col hcol => hcne col (List.mem_cons_of_mem _ hcol))
        (fun col hcol => hsafe col (List.mem_cons_of_mem _ hcol))
        (fun col hcol => htrim col (List.mem_cons_of_mem _ hcol))
        (List.cons_ne_nil _ _) ?_]
      · simp
      · have hlenB : (joinNL (interleaveSep (c2 :: rest2)) ++ ['\n']).length =
            (d :: (dt ++ Y)).length := by rw [hB]
        simp only [List.length_cons, List.length_append] at hlenB ⊢
        omega

/-- `parseColumnsFromBody` recovers the serialized columns exactly. -/
theorem parseColumnsFromBody_serialized {cols : List (List Char)}
    (hcne : ∀ col ∈ cols, col ≠ [])
    (hsafe : ∀ col ∈ cols, ∀ c ∈ col, safeColChar c = true)
    (htrim : ∀ col ∈ cols, trimChars col = col) (hne : cols ≠ []) :
    parseColumnsFromBody (joinNL (interleaveSep cols) ++ ['\n']) cols.length = cols := by
  unfold parseColumnsFromBody splitColSep
  rw [splitSepGo_serialized cols _ [] hcne hsafe htrim hne (le_refl _)]
  cases cols with
  | nil => exact absurd rfl hne
  | cons c1 tl =>
    simp only [List.reverse_nil, List.nil_append, List.headD_cons, List.tail_cons]
    apply List.ext_getElem
    · simp
    · intro i h1 h2
      simp only [List.getElem_map, List.getElem_range] at h1 ⊢
      cases i with
      | zero =>
        rw [show ((c1 ++ ['\n']) :: tl.map (fun ci => '\n' :: (ci ++ ['\n']))).get? 0 =
          some (c1 ++ ['\n']) from rfl]
        rw [show (some (c1 ++ ['\n'])).getD [] = c1 ++ ['\n'] from rfl]
        rw [List.getElem_cons_zero]
        have hp := @trimChars_pad [] ['\n'] c1
          (fun d hd => absurd hd (List.not_mem_nil d))
          (fun d hd => by
            simp only [List.mem_singleton] at hd
            subst hd
            decide)
          (htrim c1 (List.mem_cons_self _ _)) (hcne c1 (List.mem_cons_self _ _))
        rw [List.nil_append] at hp
        exact hp
      | succ j =>
        have hj : j < tl.length := by
          simp only [List.length_cons] at h2
          omega
        rw [show ((c1 ++ ['\n']) :: tl.map (fun ci => '\n' :: (ci ++ ['\n']))).get? (j + 1) =
          (tl.map (fun ci => '\n' :: (ci ++ ['\n']))).get? j from rfl]
        rw [List.get?_eq_getElem?, List.getElem?_map,
          List.getElem?_eq_getElem hj]
        rw [show (Option.map (fun ci => '\n' :: (ci ++ ['\n'])) (some tl[j])).getD [] =
          '\n' :: (tl[j] ++ ['\n']) from rfl]
        rw [List.getElem_cons_succ]
        have hmem : tl[j] ∈ c1 :: tl :=
          List.mem_cons_of_mem _ (List.getElem_mem hj)
        have hp := @trimChars_pad ['\n'] ['\n'] (tl[j])
          (fun d hd => by
            simp only [List.mem_singleton] at hd
            subst hd
            decide)
          (fun d hd => by
            simp only [List.mem_singleton] at hd
            subst hd
            decide)
          (htrim _ hmem) (hcne _ hmem)
        rw [show (['\n'] : List Char) ++ (tl[j] ++ ['\n']) =
          '\n' :: (tl[j] ++ ['\n']) from rfl] at hp
        exact hp

theorem consumeMetaGo_blank (cs bs : List (List Char)) (m : Nat)
    (rest : List (List Char)) :
    consumeMetaGo cs bs m ([] :: rest) = consumeMetaGo cs bs (m + 1) rest := rfl

theorem consumeMetaGo_colors (cs bs : List (List Char)) (m : Nat)
    (rest : List (List Char)) {n : Nat} {colors : List (List Char)}
    (htok : ∀ t ∈ colors, ∀ c ∈ t, safeTokenChar c = true)
    (htake : colors.take n ≠ []) :
    consumeMetaGo cs bs m (colorsLineOf n colors :: rest) =
      consumeMetaGo (colors.take n) bs (m + (colorsLineOf n colors).length + 1) rest := by
  rw [consumeMetaGo.eq_def]
  dsimp only
  rw [trim_colorsLine]
  rw [show (colorsLineOf n colors).isEmpty = false from rfl]
  rw [matchMetaLine_colorsLine n htok]
  simp only [Bool.false_eq_true, if_false]
  rw [splitTokens_joinPipe htake fun t ht => htok t (List.mem_of_mem_take ht)]

theorem consumeMetaGo_borders (cs bs : List (List Char)) (m : Nat)
    (rest : List (List Char)) {n : Nat} {borders : List (List Char)}
    (htok : ∀ t ∈ borders, ∀ c ∈ t, safeTokenChar c = true)
    (htake : borders.take n ≠ []) :
    consumeMetaGo cs bs m (bordersLineOf n borders :: rest) =
      consumeMetaGo cs (borders.take n) (m + (bordersLineOf n borders).length + 1) rest := by
  rw [consumeMetaGo.eq_def]
  dsimp only
  rw [trim_bordersLine]
  rw [show (bordersLineOf n borders).isEmpty = false from rfl]
  rw [show matchMetaLine litColumnsColors (bordersLineOf n borders) = none from rfl]
  rw [matchMetaLine_bordersLine n htok]
  simp only [Bool.false_eq_true, if_false]
  rw [splitTokens_joinPipe htake fun t ht => htok t (List.mem_of_mem_take ht)]

theorem consumeMetaGo_stop (cs bs : List (List Char)) (m : Nat)
    {col : List Char} (rest : List (List Char)) (hne : col ≠ [])
    (hsafe : ∀ c ∈ col, safeColChar c = true) (htrim : trimChars col = col) :
    consumeMetaGo cs bs m (col :: rest) = (cs, bs, m, col :: rest) := by
  rw [consumeMetaGo.eq_def]
  dsimp only
  rw [htrim]
  have hcol : matchMetaLine litColumnsColors col = none := by
    have h := matchMetaLine_safeCol litColumnsColors hsafe
    rw [htrim] at h
    exact h
  have hbor : matchMetaLine litColumnsBorders col = none := by
    have h := matchMetaLine_safeCol litColumnsBorders hsafe
    rw [htrim] at h
    exact h
  cases col with
  | nil => exact absurd rfl hne
  | cons d dt =>
    rw [show (d :: dt).isEmpty = false from rfl]
    rw [hcol, hbor]
    simp only [Bool.false_eq_true, if_false]

theorem take_ne_nil_of_ne {α : Type} {l : List α} {n : Nat} (h1 : 1 ≤ n)
    (hne : l ≠ []) : l.take n ≠ [] := by
  cases l with
  | nil => exact absurd rfl hne
  | cons t ts =>
    cases n with
    | zero => omega
    | succ k => simp

/-- The metadata-consumption loop applied to the lines of a serialized block:
the leading blank line and the metadata lines are consumed, the parsed colors
and borders are the serialized tokens, and the body lines remain. -/
theorem consumeMeta_serialized {n : Nat} {colors borders cols : List (List Char)}
    (h1 : 1 ≤ n)
    (hctok : ∀ t ∈ colors, ∀ c ∈ t, safeTokenChar c = true)
    (hbtok : ∀ t ∈ borders, ∀ c ∈ t, safeTokenChar c = true)
    (hsafe : ∀ col ∈ cols, ∀ c ∈ col, safeColChar c = true)
    (htrim : ∀ col ∈ cols, trimChars col = col)
    (hcne : ∀ col ∈ cols, col ≠ []) (hne : cols ≠ []) :
    ∃ m, consumeMeta ([] :: (((if colors.isEmpty then [] else [colorsLineOf n colors]) ++
        (if borders.isEmpty then [] else [bordersLineOf n borders]) ++
        interleaveSep cols) ++ [[]])) =
      (if colors.isEmpty then [] else colors.take n,
       if borders.isEmpty then [] else borders.take n,
       m, interleaveSep cols ++ [[]]) := by
  obtain ⟨c1, restc, rfl⟩ : ∃ c1 restc, cols = c1 :: restc := by
    cases cols with
    | nil => exact absurd rfl hne
    | cons c1 restc => exact ⟨c1, restc, rfl⟩
  have hstop : ∀ cs bs m, consumeMetaGo cs bs m (interleaveSep (c1 :: restc) ++ [[]]) =
      (cs, bs, m, interleaveSep (c1 :: restc) ++ [[]]) := by
    intro cs bs m
    rw [show interleaveSep (c1 :: restc) ++ [[]] =
      c1 :: ((restc.flatMap fun col => [sepLineChars, col]) ++ [[]]) from rfl]
    exact consumeMetaGo_stop cs bs m _ (hcne c1 (List.mem_cons_self _ _))
      (hsafe c1 (List.mem_cons_self _ _)) (htrim c1 (List.mem_cons_self _ _))
  unfold consumeMeta
  cases hc : colors.isEmpty <;> cases hb : borders.isEmpty <;>
    simp only [Bool.false_eq_true, if_false, if_true]
  · -- both present
    have htakec : colors.take n ≠ [] := take_ne_nil_of_ne h1 (by
      intro h
      rw [h] at hc
      cases hc)
    have htakeb : borders.take n ≠ [] := take_ne_nil_of_ne h1 (by
      intro h
      rw [h] at hb
      cases hb)
    refine ⟨1 + (colorsLineOf n colors).length + 1 + (bordersLineOf n borders).length + 1, ?_⟩
    rw [consumeMetaGo_blank]
    rw [show ([colorsLineOf n colors] ++ [bordersLineOf n borders] ++
        interleaveSep (c1 :: restc)) ++ [[]] =
      colorsLineOf n colors :: bordersLineOf n borders ::
        (interleaveSep (c1 :: restc) ++ [[]]) from by simp]
    rw [consumeMetaGo_colors _ _ _ _ hctok htakec]
    rw [consumeMetaGo_borders _ _ _ _ hbtok htakeb]
    rw [hstop]
  · -- colors only
    have htakec : colors.take n ≠ [] := take_ne_nil_of_ne h1 (by
      intro h
      rw [h] at hc
      cases hc)
    refine ⟨1 + (colorsLineOf n colors).length + 1, ?_⟩
    rw [consumeMetaGo_blank]
    rw [show ([colorsLineOf n colors] ++ [] ++ interleaveSep (c1 :: restc)) ++ [[]] =
      colorsLineOf n colors :: (interleaveSep (c1 :: restc) ++ [[]]) from by simp]
    rw [consumeMetaGo_colors _ _ _ _ hctok htakec]
    rw [hstop]
  · -- borders only
    have htakeb : borders.take n ≠ [] := take_ne_nil_of_ne h1 (by
      intro h
      rw [h] at hb
      cases hb)
    refine ⟨1 + (bordersLineOf n borders).length + 1, ?_⟩
    rw [consumeMetaGo_blank]
    rw [show ([] ++ [bordersLineOf n borders] ++ interleaveSep (c1 :: restc)) ++ [[]] =
      bordersLineOf n borders :: (interleaveSep (c1 :: restc) ++ [[]]) from by simp]
    rw [consumeMetaGo_borders _ _ _ _ hbtok htakeb]
    rw [hstop]
  · -- neither
    refine ⟨1, ?_⟩
    rw [consumeMetaGo_blank]
    rw [show ([] ++ [] ++ interleaveSep (c1 :: restc)) ++ [[]] =
      interleaveSep (c1 :: restc) ++ [[]] from by simp]
    rw [hstop]

theorem cleanLine_colorsLine {n : Nat} {colors : List (List Char)}
    (htok : ∀ t ∈ colors, ∀ c ∈ t, safeTokenChar c = true) :
    cleanLine (colorsLineOf n colors) := by
  intro c hc
  unfold colorsLineOf at hc
  rcases List.mem_append.mp hc with hc | hc
  · rcases List.mem_append.mp hc with hc | hc
    · exact (by decide : ∀ x ∈ "%% columns:colors ".toList, x ≠ '\n' ∧ x ≠ '\r') c hc
    · rcases joinPipe_chars (fun t ht => htok t (List.mem_of_mem_take ht)) c hc with
        ht | rfl
      · have hf := safeTokenChar_facts ht
        exact ⟨hf.2.2.1, hf.2.2.2.1⟩
      · exact ⟨by decide, by decide⟩
  · exact (by decide : ∀ x ∈ " %%".toList, x ≠ '\n' ∧ x ≠ '\r') c hc

theorem cleanLine_bordersLine {n : Nat} {borders : List (List Char)}
    (htok : ∀ t ∈ borders, ∀ c ∈ t, safeTokenChar c = true) :
    cleanLine (bordersLineOf n borders) := by
  intro c hc
  unfold bordersLineOf at hc
  rcases List.mem_append.mp hc with hc | hc
  · rcases List.mem_append.mp hc with hc | hc
    · exact (by decide : ∀ x ∈ "%% columns:borders ".toList, x ≠ '\n' ∧ x ≠ '\r') c hc
    · rcases joinPipe_chars (fun t ht => htok t (List.mem_of_mem_take ht)) c hc with
        ht | rfl
      · have hf := safeTokenChar_facts ht
        exact ⟨hf.2.2.1, hf.2.2.2.1⟩
      · exact ⟨by decide, by decide⟩
  · exact (by decide : ∀ x ∈ " %%".toList, x ≠ '\n' ∧ x ≠ '\r') c hc

/-- Splitting the serialized block content into lines recovers the line list:
a leading blank line, the metadata lines, the interleaved body lines and a
trailing blank line. -/
theorem splitRN_blockContent {n : Nat} {colors borders cols : List (List Char)}
    (hctok : ∀ t ∈ colors, ∀ c ∈ t, safeTokenChar c = true)
    (hbtok : ∀ t ∈ borders, ∀ c ∈ t, safeTokenChar c = true)
    (hsafe : ∀ col ∈ cols, ∀ c ∈ col, safeColChar c = true)
    (hne : cols ≠ []) :
    splitRN ('\n' :: (joinNL
        ((if colors.isEmpty then [] else [colorsLineOf n colors]) ++
         (if borders.isEmpty then [] else [bordersLineOf n borders]) ++
         interleaveSep cols) ++ ['\n'])) =
      [] :: (((if colors.isEmpty then [] else [colorsLineOf n colors]) ++
         (if borders.isEmpty then [] else [bordersLineOf n borders]) ++
         interleaveSep cols) ++ [[]]) := by
  have hlines : ((if colors.isEmpty then [] else [colorsLineOf n colors]) ++
       (if borders.isEmpty then [] else [bordersLineOf n borders]) ++
       interleaveSep cols) ≠ [] := by
    intro h
    exact interleaveSep_ne hne (by
      have := congrArg (fun l => l.length) h
      simp only [List.length_append, List.length_nil] at this
      exact List.eq_nil_of_length_eq_zero (by omega))
  have hclean : ∀ l ∈ ((if colors.isEmpty then [] else [colorsLineOf n colors]) ++
       (if borders.isEmpty then [] else [bordersLineOf n borders]) ++
       interleaveSep cols) ++ [[]], cleanLine l := by
    intro l hl
    have hif : ∀ (b : Bool) (x : List Char), l ∈ (if b then ([] : List (List Char)) else [x]) → l = x := by
      intro b x hlx
      cases b
      · simpa using hlx
      · simp at hlx
    rcases List.mem_append.mp hl with hl | hl
    · rcases List.mem_append.mp hl with hl | hl
      · rcases List.mem_append.mp hl with hl | hl
        · exact hif _ _ hl ▸ cleanLine_colorsLine hctok
        · exact hif _ _ hl ▸ cleanLine_bordersLine hbtok
      · rcases interleaveSep_mem l hl with hl | rfl
        · intro c hc
          have hf := safeColChar_facts (hsafe l hl c hc)
          exact ⟨hf.2.1, hf.2.2.1⟩
        · intro c hc
          exact (by decide : ∀ x ∈ sepLineChars, x ≠ '\n' ∧ x ≠ '\r') c hc
    · simp only [List.mem_singleton] at hl
      subst hl
      intro c hc
      cases hc
  rw [show ('\n' :: (joinNL
      ((if colors.isEmpty then [] else [colorsLineOf n colors]) ++
       (if borders.isEmpty then [] else [bordersLineOf n borders]) ++
       interleaveSep cols) ++ ['\n'])) =
    ([] : List Char) ++ '\n' :: (joinNL
      ((if colors.isEmpty then [] else [colorsLineOf n colors]) ++
       (if borders.isEmpty then [] else [bordersLineOf n borders]) ++
       interleaveSep cols) ++ ['\n']) from rfl]
  rw [splitRN_append _ (fun c hc => absurd hc (List.not_mem_nil c))]
  rw [show (joinNL
      ((if colors.isEmpty then [] else [colorsLineOf n colors]) ++
       (if borders.isEmpty then [] else [bordersLineOf n borders]) ++
       interleaveSep cols) ++ ['\n']) = joinNL
      (((if colors.isEmpty then [] else [colorsLineOf n colors]) ++
       (if borders.isEmpty then [] else [bordersLineOf n borders]) ++
       interleaveSep cols) ++ [[]]) from by rw [joinNL_append_single hlines]]
  rw [splitRN_joinNL (by simp) hclean]

theorem findBlocksGo_at_end (text : List Char) (fuel : Nat) :
    findBlocksGo text fuel text.length = [] := by
  cases fuel with
  | zero => rfl
  | succ f =>
    rw [findBlocksGo.eq_def]
    dsimp only
    rw [List.drop_length]
    rfl

theorem startLineOf_len (n : Nat) : 20 ≤ (startLineOf n).length := by
  unfold startLineOf
  simp only [List.length_append]
  have h : (toString n).toList.length = (toString n).toList.length := rfl
  rw [show ("%% columns:start ".toList).length = 17 from rfl,
    show (" %%".toList).length = 3 from rfl]
  omega

/-- Scanning a serialized block finds exactly one block, with the original
count and columns and the (empty-normalized, sliced) colors and borders. -/
theorem findColumnsBlocks_serialized {n : Nat} {cols colors borders : List (List Char)}
    (h1 : 1 ≤ n) (h6 : n ≤ 6) (hlen : cols.length = n)
    (hsafe : ∀ col ∈ cols, ∀ c ∈ col, safeColChar c = true)
    (htrim : ∀ col ∈ cols, trimChars col = col)
    (hcne : ∀ col ∈ cols, col ≠ [])
    (hctok : ∀ t ∈ colors, ∀ c ∈ t, safeTokenChar c = true)
    (hbtok : ∀ t ∈ borders, ∀ c ∈ t, safeTokenChar c = true) :
    ∃ sml, findColumnsBlocks (buildColumnsMarkdown n cols colors borders) =
      [{ numColumns := n, columns := cols, startPos := 0,
         endPos := (buildColumnsMarkdown n cols colors borders).length,
         startMarkerLen := sml, endMarkerLen := 17,
         colors := if colors.isEmpty then [] else colors.take n,
         borders := if borders.isEmpty then [] else borders.take n }] := by
  have hne : cols ≠ [] := by
    intro h
    rw [h] at hlen
    simp at hlen
    omega
  have hinterne := interleaveSep_ne hne
  have hLne : (if colors.isEmpty then [] else [colorsLineOf n colors]) ++
      (if borders.isEmpty then [] else [bordersLineOf n borders]) ++
      interleaveSep cols ≠ [] := by
    intro h
    apply hinterne
    have hlm := congrArg (fun l => l.length) h
    simp only [List.length_append, List.length_nil] at hlm
    exact List.eq_nil_of_length_eq_zero (by omega)
  have hnorm : (cols ++ List.replicate (n - cols.length) ([] : List Char)).take n =
      cols := by
    rw [← hlen]
    simp
  have hS : buildColumnsMarkdown n cols colors borders =
      startLineOf n ++ '\n' :: (joinNL
        ((if colors.isEmpty then [] else [colorsLineOf n colors]) ++
         (if borders.isEmpty then [] else [bordersLineOf n borders]) ++
         interleaveSep cols) ++ '\n' :: endLineChars) := by
    unfold buildColumnsMarkdown
    dsimp only
    rw [hnorm]
    rw [show [startLineOf n] ++
        (if colors.isEmpty then [] else [colorsLineOf n colors]) ++
        (if borders.isEmpty then [] else [bordersLineOf n borders]) ++
        interleaveSep cols ++ [endLineChars] =
      startLineOf n ::
        (((if colors.isEmpty then [] else [colorsLineOf n colors]) ++
          (if borders.isEmpty then [] else [bordersLineOf n borders]) ++
          interleaveSep cols) ++ [endLineChars]) from by simp]
    rw [joinNL_cons_ne _ (by simp), joinNL_append_single hLne]
  have hstart : findStartAux (buildColumnsMarkdown n cols colors borders) 0 =
      some (0, (startLineOf n).length, n) := by
    rw [hS]
    have hm := matchStartAt_startLine h1 h6 ('\n' :: (joinNL
        ((if colors.isEmpty then [] else [colorsLineOf n colors]) ++
         (if borders.isEmpty then [] else [bordersLineOf n borders]) ++
         interleaveSep cols) ++ '\n' :: endLineChars))
    have hne2 : startLineOf n ++ '\n' :: (joinNL
        ((if colors.isEmpty then [] else [colorsLineOf n colors]) ++
         (if borders.isEmpty then [] else [bordersLineOf n borders]) ++
         interleaveSep cols) ++ '\n' :: endLineChars) ≠ [] := by
      intro h
      have hlm := congrArg (fun l => l.length) h
      have hsl := startLineOf_len n
      simp only [List.length_append, List.length_cons, List.length_nil] at hlm
      omega
    rw [findStartAux_head 0 hne2 hm]
    have : (startLineOf n ++ '\n' :: (joinNL
        ((if colors.isEmpty then [] else [colorsLineOf n colors]) ++
         (if borders.isEmpty then [] else [bordersLineOf n borders]) ++
         interleaveSep cols) ++ '\n' :: endLineChars)).length -
        ('\n' :: (joinNL
        ((if colors.isEmpty then [] else [colorsLineOf n colors]) ++
         (if borders.isEmpty then [] else [bordersLineOf n borders]) ++
         interleaveSep cols) ++ '\n' :: endLineChars)).length =
        (startLineOf n).length := by
      simp only [List.length_append, List.length_cons]
      omega
    rw [this]
  obtain ⟨m, hmeta⟩ := consumeMeta_serialized h1 hctok hbtok hsafe htrim hcne hne
  refine ⟨(startLineOf n).length + m, ?_⟩
  unfold findColumnsBlocks
  rw [findBlocksGo.eq_def]
  dsimp only
  rw [List.drop_zero, hstart]
  dsimp only
  rw [if_neg (by simp; omega)]
  rw [Nat.zero_add]
  rw [show List.drop (startLineOf n).length (buildColumnsMarkdown n cols colors borders) =
    '\n' :: (joinNL
        ((if colors.isEmpty then [] else [colorsLineOf n colors]) ++
         (if borders.isEmpty then [] else [bordersLineOf n borders]) ++
         interleaveSep cols) ++ '\n' :: endLineChars) from by rw [hS, List.drop_left]]
  rw [findEndAux_block _ hctok hbtok hsafe htrim hcne hne]
  dsimp only
  rw [show (startLineOf n).length + ((joinNL
        ((if colors.isEmpty then [] else [colorsLineOf n colors]) ++
         (if borders.isEmpty then [] else [bordersLineOf n borders]) ++
         interleaveSep cols)).length + 2) - (startLineOf n).length =
    ('\n' :: (joinNL
        ((if colors.isEmpty then [] else [colorsLineOf n colors]) ++
         (if borders.isEmpty then [] else [bordersLineOf n borders]) ++
         interleaveSep cols) ++ ['\n'])).length from by
      simp only [List.length_cons, List.length_append, List.length_nil]
      omega]
  rw [show '\n' :: (joinNL
        ((if colors.isEmpty then [] else [colorsLineOf n colors]) ++
         (if borders.isEmpty then [] else [bordersLineOf n borders]) ++
         interleaveSep cols) ++ '\n' :: endLineChars) =
    ('\n' :: (joinNL
        ((if colors.isEmpty then [] else [colorsLineOf n colors]) ++
         (if borders.isEmpty then [] else [bordersLineOf n borders]) ++
         interleaveSep cols) ++ ['\n'])) ++ endLineChars from by simp]
  rw [List.take_left]
  rw [splitRN_blockContent hctok hbtok hsafe hne, hmeta]
  dsimp only
  rw [joinNL_append_single hinterne]
  rw [show joinNL (interleaveSep cols) ++ '\n' :: ([] : List Char) =
    joinNL (interleaveSep cols) ++ ['\n'] from rfl]
  rw [show (parseColumnsFromBody (joinNL (interleaveSep cols) ++ ['\n']) n) =
    cols from by rw [← hlen]; exact parseColumnsFromBody_serialized hcne hsafe htrim hne]
  rw [show (startLineOf n).length + ((joinNL
        ((if colors.isEmpty then [] else [colorsLineOf n colors]) ++
         (if borders.isEmpty then [] else [bordersLineOf n borders]) ++
         interleaveSep cols)).length + 2) + 17 =
    (buildColumnsMarkdown n cols colors borders).length from by
      rw [hS]
      simp only [List.length_append, List.length_cons]
      rw [show endLineChars.length = 17 from rfl]
      omega]
  rw [findBlocksGo_at_end]

/-- C1 counterexample: the round trip is not exact for every list of column
strings — `parseColumnsFromBody` trims each piece, so a column whose content
carries leading whitespace (here `" A"`) comes back trimmed (`"A"`), not
equal to the serialized input. -/
theorem roundTrip_counterexample :
    (findColumnsBlocks (buildColumnsMarkdown 1 [[' ', 'A']] [] [])).map
      (fun b => b.columns) ≠ [[[' ', 'A']]] := by decide

/-- C1 (amended): for every column count in [1,6] and columns that are
nonempty, trimmed and made of safe characters (letters, digits, spaces), with
colors/borders tokens made of safe token characters, parsing the serialized
block yields exactly one block with the same column count and the same column
contents; colors and borders are empty-normalized: an empty list stays empty
(its metadata line is omitted) and a non-empty list comes back sliced to the
column count. -/
theorem roundTrip_parse_build {n : Nat} {cols colors borders : List (List Char)}
    (h1 : 1 ≤ n) (h6 : n ≤ 6) (hlen : cols.length = n)
    (hsafe : ∀ col ∈ cols, ∀ c ∈ col, safeColChar c = true)
    (htrim : ∀ col ∈ cols, trimChars col = col)
    (hcne : ∀ col ∈ cols, col ≠ [])
    (hctok : ∀ t ∈ colors, ∀ c ∈ t, safeTokenChar c = true)
    (hbtok : ∀ t ∈ borders, ∀ c ∈ t, safeTokenChar c = true) :
    (findColumnsBlocks (buildColumnsMarkdown n cols colors borders)).map
        (fun b => (b.numColumns, b.columns, b.colors, b.borders)) =
      [(n, cols,
        if colors.isEmpty then [] else colors.take n,
        if borders.isEmpty then [] else borders.take n)] := by
  obtain ⟨sml, hfind⟩ :=
    findColumnsBlocks_serialized h1 h6 hlen hsafe htrim hcne hctok hbtok
  rw [hfind]
  simp

/-- C1 witness: a concrete instantiation of the amended round-trip theorem. -/
theorem roundTrip_parse_build_witness :
    (findColumnsBlocks (buildColumnsMarkdown 2 [['a'], ['b']] [['r']] [])).map
        (fun b => (b.numColumns, b.columns, b.colors, b.borders)) =
      [(2, [['a'], ['b']], [['r']], [])] := by
  have h := @roundTrip_parse_build 2 [['a'], ['b']] [['r']] []
    (by decide) (by decide) (by decide)
    (by decide) (by decide) (by decide) (by decide) (by decide)
  simpa using h

/-! ## Re-location metadata search (`syncToSource` regexes) -/

theorem metaLoose_match {hd : Char} (tlit : List Char) (hhd : jsSpace hd = false)
    {J : List Char} (hJ : ∀ c ∈ J, payloadChar c = true ∧ jsSpace c = false)
    (rest : List Char) :
    matchMetaLoose (hd :: tlit)
      ('%' :: '%' :: ' ' :: ((hd :: tlit) ++ (' ' :: (J ++ (' ' :: '%' :: '%' :: rest))))) =
      some (J ++ [' ']) := by
  unfold matchMetaLoose
  rw [show matchTwoPercents
      ('%' :: '%' :: ' ' :: ((hd :: tlit) ++ (' ' :: (J ++ (' ' :: '%' :: '%' :: rest))))) =
      some (' ' :: ((hd :: tlit) ++ (' ' :: (J ++ (' ' :: '%' :: '%' :: rest))))) from rfl]
  rw [Option.some_bind,
    List.dropWhile_cons_of_pos (by decide : jsSpace ' ' = true),
    List.cons_append,
    List.dropWhile_cons_of_neg (by simp [hhd]),
    ← List.cons_append, matchLitCI_self, Option.some_bind]
  exact payloadLoose_capture rest hJ

theorem matchMetaLoose_colorsLine (n : Nat) {colors : List (List Char)}
    (htok : ∀ t ∈ colors, ∀ c ∈ t, safeTokenChar c = true) (X : List Char) :
    matchMetaLoose litColumnsColors ((colorsLineOf n colors ++ ['\n']) ++ X) =
      some (joinPipe (colors.take n) ++ [' ']) := by
  rw [colorsLine_nl]
  rw [show ('%' :: '%' :: ' ' :: (litColumnsColors ++
      (' ' :: (joinPipe (colors.take n) ++ [' ', '%', '%', '\n'])))) ++ X =
    '%' :: '%' :: ' ' :: (litColumnsColors ++
      (' ' :: (joinPipe (colors.take n) ++ (' ' :: '%' :: '%' :: ('\n' :: X))))) from by
    simp]
  exact @metaLoose_match 'c' ("olumns:colors".toList) (by decide) _
    (joinPipe_payload fun t ht => htok t (List.mem_of_mem_take ht)) ('\n' :: X)

theorem matchMetaLoose_bordersLine (n : Nat) {borders : List (List Char)}
    (htok : ∀ t ∈ borders, ∀ c ∈ t, safeTokenChar c = true) (X : List Char) :
    matchMetaLoose litColumnsBorders ((bordersLineOf n borders ++ ['\n']) ++ X) =
      some (joinPipe (borders.take n) ++ [' ']) := by
  rw [bordersLine_nl]
  rw [show ('%' :: '%' :: ' ' :: (litColumnsBorders ++
      (' ' :: (joinPipe (borders.take n) ++ [' ', '%', '%', '\n'])))) ++ X =
    '%' :: '%' :: ' ' :: (litColumnsBorders ++
      (' ' :: (joinPipe (borders.take n) ++ (' ' :: '%' :: '%' :: ('\n' :: X))))) from by
    simp]
  exact @metaLoose_match 'c' ("olumns:borders".toList) (by decide) _
    (joinPipe_payload fun t ht => htok t (List.mem_of_mem_take ht)) ('\n' :: X)

/-- `SkipsMeta lit seg rest`: the unanchored metadata search finds no match
starting inside `seg`, so searching `seg ++ rest` equals searching `rest`. -/
def SkipsMeta (lit seg rest : List Char) : Prop :=
  searchMeta lit (seg ++ rest) = searchMeta lit rest

theorem searchMeta_cons_none {lit : List Char} {c : Char} {tl : List Char}
    (h : matchMetaLoose lit (c :: tl) = none) :
    searchMeta lit (c :: tl) = searchMeta lit tl := by
  rw [searchMeta.eq_def]
  simp only [h]

theorem skipsMeta_nil (lit rest : List Char) : SkipsMeta lit [] rest := rfl

theorem skipsMeta_cons {lit seg rest : List Char} {c : Char}
    (h : matchMetaLoose lit (c :: (seg ++ rest)) = none)
    (h2 : SkipsMeta lit seg rest) : SkipsMeta lit (c :: seg) rest := by
  unfold SkipsMeta at h2 ⊢
  rw [List.cons_append, searchMeta_cons_none h, h2]

theorem skipsMeta_append {lit a b rest : List Char} (ha : SkipsMeta lit a (b ++ rest))
    (hb : SkipsMeta lit b rest) : SkipsMeta lit (a ++ b) rest := by
  unfold SkipsMeta at ha hb ⊢
  rw [List.append_assoc, ha, hb]

theorem matchMetaLoose_head {lit : List Char} {c : Char} (tl : List Char)
    (h : c ≠ '%') : matchMetaLoose lit (c :: tl) = none := by
  unfold matchMetaLoose
  rw [matchTwoPercents_head tl h]
  rfl

theorem skipsMeta_nopercent {lit seg : List Char} (rest : List Char)
    (h : ∀ c ∈ seg, c ≠ '%') : SkipsMeta lit seg rest := by
  induction seg with
  | nil => exact skipsMeta_nil lit rest
  | cons c tl ih =>
    exact skipsMeta_cons (matchMetaLoose_head _ (h c (List.mem_cons_self _ _)))
      (ih fun d hd => h d (List.mem_cons_of_mem _ hd))

theorem matchMetaLoose_pp_nl {lit rest : List Char}
    (hP : matchLitCI lit (rest.dropWhile jsSpace) = none) :
    matchMetaLoose lit ('%' :: '%' :: '\n' :: rest) = none := by
  unfold matchMetaLoose
  rw [show matchTwoPercents ('%' :: '%' :: '\n' :: rest) = some ('\n' :: rest) from rfl,
    Option.some_bind, List.dropWhile_cons_of_pos (by decide : jsSpace '\n' = true), hP]
  rfl

/-- The borders-metadata search finds no match starting inside a serialized
colors metadata line. -/
theorem skipsMetaBorders_colorsSeg {n : Nat} {colors : List (List Char)}
    {rest : List Char}
    (htok : ∀ t ∈ colors, ∀ c ∈ t, safeTokenChar c = true)
    (hP : matchLitCI litColumnsBorders (rest.dropWhile jsSpace) = none) :
    SkipsMeta litColumnsBorders (colorsLineOf n colors ++ ['\n']) rest := by
  rw [colorsLine_nl]
  have hJ : ∀ c ∈ joinPipe (colors.take n), c ≠ '%' :=
    joinPipe_no_percent fun t ht => htok t (List.mem_of_mem_take ht)
  refine skipsMeta_cons rfl (skipsMeta_cons rfl (skipsMeta_cons rfl
    (skipsMeta_append (skipsMeta_nopercent _ (by decide)) (skipsMeta_cons rfl
      (skipsMeta_append (skipsMeta_nopercent _ hJ) (skipsMeta_cons rfl
        (skipsMeta_cons (matchMetaLoose_pp_nl hP) (skipsMeta_cons rfl
          (skipsMeta_cons rfl (skipsMeta_nil _ rest))))))))))

theorem searchMeta_hit {lit s p : List Char} (h : matchMetaLoose lit s = some p) :
    searchMeta lit s = some p := by
  cases s with
  | nil =>
    rw [show matchMetaLoose lit [] = none from rfl] at h
    cases h
  | cons c tl =>
    rw [searchMeta.eq_def]
    simp only [h]

theorem isEmpty_false_of_ne {l : List (List Char)} (h : l ≠ []) : l.isEmpty = false := by
  cases l with
  | nil => exact absurd rfl h
  | cons t ts => rfl

/-- The colors search over a serialized block content finds the serialized
colors capture. -/
theorem searchMeta_colors_block {n : Nat} {colors borders cols : List (List Char)}
    (hctok : ∀ t ∈ colors, ∀ c ∈ t, safeTokenChar c = true)
    (hcne2 : colors ≠ []) (hbne2 : borders ≠ []) (hne : cols ≠ []) :
    searchMeta litColumnsColors ('\n' :: (joinNL
      ((if colors.isEmpty then [] else [colorsLineOf n colors]) ++
       (if borders.isEmpty then [] else [bordersLineOf n borders]) ++
       interleaveSep cols) ++ ['\n'])) =
      some (joinPipe (colors.take n) ++ [' ']) := by
  rw [isEmpty_false_of_ne hcne2, isEmpty_false_of_ne hbne2]
  simp only [Bool.false_eq_true, if_false]
  rw [show joinNL ([colorsLineOf n colors] ++ [bordersLineOf n borders] ++
        interleaveSep cols) ++ ['\n'] =
      (colorsLineOf n colors ++ ['\n']) ++
        ((bordersLineOf n borders ++ ['\n']) ++
          (joinNL (interleaveSep cols) ++ ['\n'])) from by
    rw [show ([colorsLineOf n colors] ++ [bordersLineOf n borders] ++
        interleaveSep cols) =
      colorsLineOf n colors :: bordersLineOf n borders :: interleaveSep cols from rfl]
    rw [joinNL_cons₂, joinNL_cons_ne _ (interleaveSep_ne hne)]
    simp]
  rw [searchMeta_cons_none (matchMetaLoose_head _ (by decide))]
  exact searchMeta_hit (matchMetaLoose_colorsLine n hctok _)

/-- The borders search over a serialized block content skips the colors line
and finds the serialized borders capture. -/
theorem searchMeta_borders_block {n : Nat} {colors borders cols : List (List Char)}
    (hctok : ∀ t ∈ colors, ∀ c ∈ t, safeTokenChar c = true)
    (hbtok : ∀ t ∈ borders, ∀ c ∈ t, safeTokenChar c = true)
    (hcne2 : colors ≠ []) (hbne2 : borders ≠ []) (hne : cols ≠ []) :
    searchMeta litColumnsBorders ('\n' :: (joinNL
      ((if colors.isEmpty then [] else [colorsLineOf n colors]) ++
       (if borders.isEmpty then [] else [bordersLineOf n borders]) ++
       interleaveSep cols) ++ ['\n'])) =
      some (joinPipe (borders.take n) ++ [' ']) := by
  rw [isEmpty_false_of_ne hcne2, isEmpty_false_of_ne hbne2]
  simp only [Bool.false_eq_true, if_false]
  rw [show joinNL ([colorsLineOf n colors] ++ [bordersLineOf n borders] ++
        interleaveSep cols) ++ ['\n'] =
      (colorsLineOf n colors ++ ['\n']) ++
        ((bordersLineOf n borders ++ ['\n']) ++
          (joinNL (interleaveSep cols) ++ ['\n'])) from by
    rw [show ([colorsLineOf n colors] ++ [bordersLineOf n borders] ++
        interleaveSep cols) =
      colorsLineOf n colors :: bordersLineOf n borders :: interleaveSep cols from rfl]
    rw [joinNL_cons₂, joinNL_cons_ne _ (interleaveSep_ne hne)]
    simp]
  rw [searchMeta_cons_none (matchMetaLoose_head _ (by decide))]
  have hP : matchLitCI litColumnsBorders
      (((bordersLineOf n borders ++ ['\n']) ++
        (joinNL (interleaveSep cols) ++ ['\n'])).dropWhile jsSpace) = none := rfl
  have hsk : searchMeta litColumnsBorders
      ((colorsLineOf n colors ++ ['\n']) ++
        ((bordersLineOf n borders ++ ['\n']) ++
          (joinNL (interleaveSep cols) ++ ['\n']))) =
      searchMeta litColumnsBorders
        ((bordersLineOf n borders ++ ['\n']) ++
          (joinNL (interleaveSep cols) ++ ['\n'])) :=
    skipsMetaBorders_colorsSeg hctok hP
  rw [hsk]
  exact searchMeta_hit (matchMetaLoose_bordersLine n hbtok _)

/-- Re-locating a serialized block by column count finds its exact span and
re-reads the colors and borders tokens from that serialized text. -/
theorem relocate_serialized {n : Nat} {cols colors borders : List (List Char)}
    (h1 : 1 ≤ n) (h6 : n ≤ 6) (hlen : cols.length = n)
    (hsafe : ∀ col ∈ cols, ∀ c ∈ col, safeColChar c = true)
    (htrim : ∀ col ∈ cols, trimChars col = col)
    (hcne : ∀ col ∈ cols, col ≠ [])
    (hctok : ∀ t ∈ colors, ∀ c ∈ t, safeTokenChar c = true)
    (hbtok : ∀ t ∈ borders, ∀ c ∈ t, safeTokenChar c = true)
    (hcne2 : colors ≠ []) (hbne2 : borders ≠ []) :
    relocate (buildColumnsMarkdown n cols colors borders) n =
      some (0, (buildColumnsMarkdown n cols colors borders).length,
        colors.take n, borders.take n) := by
  have hne : cols ≠ [] := by
    intro h
    rw [h] at hlen
    simp at hlen
    omega
  have hLne : (if colors.isEmpty then [] else [colorsLineOf n colors]) ++
      (if borders.isEmpty then [] else [bordersLineOf n borders]) ++
      interleaveSep cols ≠ [] := by
    intro h
    apply interleaveSep_ne hne
    have hlm := congrArg (fun l => l.length) h
    simp only [List.length_append, List.length_nil] at hlm
    exact List.eq_nil_of_length_eq_zero (by omega)
  have hS : buildColumnsMarkdown n cols colors borders =
      startLineOf n ++ '\n' :: (joinNL
        ((if colors.isEmpty then [] else [colorsLineOf n colors]) ++
         (if borders.isEmpty then [] else [bordersLineOf n borders]) ++
         interleaveSep cols) ++ '\n' :: endLineChars) := by
    unfold buildColumnsMarkdown
    dsimp only
    rw [show (cols ++ List.replicate (n - cols.length) ([] : List Char)).take n =
      cols from by rw [← hlen]; simp]
    rw [show [startLineOf n] ++
        (if colors.isEmpty then [] else [colorsLineOf n colors]) ++
        (if borders.isEmpty then [] else [bordersLineOf n borders]) ++
        interleaveSep cols ++ [endLineChars] =
      startLineOf n ::
        (((if colors.isEmpty then [] else [colorsLineOf n colors]) ++
          (if borders.isEmpty then [] else [bordersLineOf n borders]) ++
          interleaveSep cols) ++ [endLineChars]) from by simp]
    rw [joinNL_cons_ne _ (by simp), joinNL_append_single hLne]
  have hstart : findStartAux (buildColumnsMarkdown n cols colors borders) 0 =
      some (0, (startLineOf n).length, n) := by
    rw [hS]
    have hm := matchStartAt_startLine h1 h6 ('\n' :: (joinNL
        ((if colors.isEmpty then [] else [colorsLineOf n colors]) ++
         (if borders.isEmpty then [] else [bordersLineOf n borders]) ++
         interleaveSep cols) ++ '\n' :: endLineChars))
    have hne2 : startLineOf n ++ '\n' :: (joinNL
        ((if colors.isEmpty then [] else [colorsLineOf n colors]) ++
         (if borders.isEmpty then [] else [bordersLineOf n borders]) ++
         interleaveSep cols) ++ '\n' :: endLineChars) ≠ [] := by
      intro h
      have hlm := congrArg (fun l => l.length) h
      have hsl := startLineOf_len n
      simp only [List.length_append, List.length_cons, List.length_nil] at hlm
      omega
    rw [findStartAux_head 0 hne2 hm]
    have hsub : (startLineOf n ++ '\n' :: (joinNL
        ((if colors.isEmpty then [] else [colorsLineOf n colors]) ++
         (if borders.isEmpty then [] else [bordersLineOf n borders]) ++
         interleaveSep cols) ++ '\n' :: endLineChars)).length -
        ('\n' :: (joinNL
        ((if colors.isEmpty then [] else [colorsLineOf n colors]) ++
         (if borders.isEmpty then [] else [bordersLineOf n borders]) ++
         interleaveSep cols) ++ '\n' :: endLineChars)).length =
        (startLineOf n).length := by
      simp only [List.length_append, List.length_cons]
      omega
    rw [hsub]
  unfold relocate
  rw [relocateGo.eq_def]
  dsimp only
  rw [List.drop_zero, hstart]
  dsimp only
  rw [Nat.zero_add]
  rw [show List.drop (startLineOf n).length (buildColumnsMarkdown n cols colors borders) =
    '\n' :: (joinNL
        ((if colors.isEmpty then [] else [colorsLineOf n colors]) ++
         (if borders.isEmpty then [] else [bordersLineOf n borders]) ++
         interleaveSep cols) ++ '\n' :: endLineChars) from by rw [hS, List.drop_left]]
  rw [findEndAux_block _ hctok hbtok hsafe htrim hcne hne]
  dsimp only
  rw [if_pos rfl]
  rw [show (startLineOf n).length + ((joinNL
        ((if colors.isEmpty then [] else [colorsLineOf n colors]) ++
         (if borders.isEmpty then [] else [bordersLineOf n borders]) ++
         interleaveSep cols)).length + 2) - (startLineOf n).length =
    ('\n' :: (joinNL
        ((if colors.isEmpty then [] else [colorsLineOf n colors]) ++
         (if borders.isEmpty then [] else [bordersLineOf n borders]) ++
         interleaveSep cols) ++ ['\n'])).length from by
      simp only [List.length_cons, List.length_append, List.length_nil]
      omega]
  rw [show '\n' :: (joinNL
        ((if colors.isEmpty then [] else [colorsLineOf n colors]) ++
         (if borders.isEmpty then [] else [bordersLineOf n borders]) ++
         interleaveSep cols) ++ '\n' :: endLineChars) =
    ('\n' :: (joinNL
        ((if colors.isEmpty then [] else [colorsLineOf n colors]) ++
         (if borders.isEmpty then [] else [bordersLineOf n borders]) ++
         interleaveSep cols) ++ ['\n'])) ++ endLineChars from by simp]
  rw [List.take_left]
  rw [searchMeta_colors_block hctok hcne2 hbne2 hne,
    searchMeta_borders_block hctok hbtok hcne2 hbne2 hne]
  have htakec : colors.take n ≠ [] := take_ne_nil_of_ne h1 hcne2
  have htakeb : borders.take n ≠ [] := take_ne_nil_of_ne h1 hbne2
  rw [show (some (joinPipe (colors.take n) ++ [' '])).elim ([] : List (List Char))
      splitTokens = splitTokens (joinPipe (colors.take n) ++ [' ']) from rfl]
  rw [show (some (joinPipe (borders.take n) ++ [' '])).elim ([] : List (List Char))
      splitTokens = splitTokens (joinPipe (borders.take n) ++ [' ']) from rfl]
  rw [splitTokens_joinPipe htakec fun t ht => hctok t (List.mem_of_mem_take ht)]
  rw [splitTokens_joinPipe htakeb fun t ht => hbtok t (List.mem_of_mem_take ht)]
  rw [show (startLineOf n).length + ((joinNL
        ((if colors.isEmpty then [] else [colorsLineOf n colors]) ++
         (if borders.isEmpty then [] else [bordersLineOf n borders]) ++
         interleaveSep cols)).length + 2) + 17 =
    (buildColumnsMarkdown n cols colors borders).length from by
      rw [hS]
      simp only [List.length_append, List.length_cons]
      rw [show endLineChars.length = 17 from rfl]
      omega]

/-- C5: during a content-only flush, `syncToSource` re-locates the block in
the current document by column count and re-reads colors/borders from the
located block content in the live document: the dispatched replacement is
serialized with the live document's colors and borders (sliced to the column
count), not with the stale `st.block.colors`/`st.block.borders` cached at
widget construction, whatever those cached values are. -/
theorem syncToSource_rereads_live_styles {st : WidgetState}
    {newContents : List (List Char)} {n : Nat} {cols colors borders : List (List Char)}
    (hupd : st.isUpdating = false) (hcont : st.hasContainer = true)
    (hnum : st.block.numColumns = n)
    (hch : hasChangesCheck newContents st.columnContents = true)
    (h1 : 1 ≤ n) (h6 : n ≤ 6) (hlen : cols.length = n)
    (hsafe : ∀ col ∈ cols, ∀ c ∈ col, safeColChar c = true)
    (htrim : ∀ col ∈ cols, trimChars col = col)
    (hcne : ∀ col ∈ cols, col ≠ [])
    (hctok : ∀ t ∈ colors, ∀ c ∈ t, safeTokenChar c = true)
    (hbtok : ∀ t ∈ borders, ∀ c ∈ t, safeTokenChar c = true)
    (hcne2 : colors ≠ []) (hbne2 : borders ≠ []) :
    syncToSource st (.ok newContents) false
        (buildColumnsMarkdown n cols colors borders) =
      ({ st with isUpdating := false, columnContents := newContents },
       some { replaceFrom := 0,
              replaceTo := (buildColumnsMarkdown n cols colors borders).length,
              insert := buildColumnsMarkdown n newContents
                (colors.take n) (borders.take n) }) := by
  unfold syncToSource
  rw [hupd, hcont]
  simp only [Bool.not_true, Bool.or_false, Bool.false_eq_true, if_false]
  rw [hch]
  simp only [Bool.not_true, Bool.false_eq_true, if_false]
  rw [hnum,
    relocate_serialized h1 h6 hlen hsafe htrim hcne hctok hbtok hcne2 hbne2]
  dsimp only
  rw [Nat.zero_min, Nat.min_self, Nat.zero_max]

/-- C5 witness: a concrete flush in which the cached block colors (`red`) are
stale while the live document carries `g`; the dispatched replacement uses
the live `g`. -/
theorem syncToSource_rereads_live_styles_witness :
    syncToSource
        { isUpdating := false, hasContainer := true,
          columnContents := [['a'], ['b']],
          block := { numColumns := 2, columns := [['a'], ['b']], startPos := 0,
                     endPos := 5, startMarkerLen := 21, endMarkerLen := 17,
                     colors := [['r', 'e', 'd']], borders := [['0']] } }
        (.ok [['a'], ['c']]) false
        (buildColumnsMarkdown 2 [['a'], ['b']] [['g']] [['1']]) =
      ({ isUpdating := false, hasContainer := true,
         columnContents := [['a'], ['c']],
         block := { numColumns := 2, columns := [['a'], ['b']], startPos := 0,
                    endPos := 5, startMarkerLen := 21, endMarkerLen := 17,
                    colors := [['r', 'e', 'd']], borders := [['0']] } },
       some { replaceFrom := 0,
              replaceTo := (buildColumnsMarkdown 2 [['a'], ['b']] [['g']] [['1']]).length,
              insert := buildColumnsMarkdown 2 [['a'], ['c']] [['g']] [['1']] }) := by
  have h := @syncToSource_rereads_live_styles
    { isUpdating := false, hasContainer := true,
      columnContents := [['a'], ['b']],
      block := { numColumns := 2, columns := [['a'], ['b']], startPos := 0,
                 endPos := 5, startMarkerLen := 21, endMarkerLen := 17,
                 colors := [['r', 'e', 'd']], borders := [['0']] } }
    [['a'], ['c']] 2 [['a'], ['b']] [['g']] [['1']]
    rfl rfl rfl (by decide) (by decide) (by decide) (by decide)
    (by decide) (by decide) (by decide) (by decide) (by decide) (by decide)
  simpa using h
